import Mathlib

/-!
Verification of `orca/utils/train_callbacks.py`.

The module under study orchestrates periodic evaluation callbacks for a
robot-policy training loop.  We give a shallow embedding of its data model and
operations:

* `jax.numpy` arrays are modelled by `Tensor`, nested lists of integer scalars;
  `jnp.zeros_like`, `jnp.broadcast_to`, `x[None]` and `jnp.moveaxis(·, 0, 1)`
  are modelled by `Tensor.zerosLike`, `Tensor.broadcastTo`,
  `Tensor.expandDims0` and `Tensor.moveaxis01`.  Operations that raise in
  `jax` (shape or structure mismatches) return `none`.  An empty axis forgets
  the trailing dims of its elements in this representation, so lemmas about
  shapes carry a positivity hypothesis on the dims involved.
* pytrees are modelled by `PTree`, finitely branching trees with `String`-keyed
  children; `jax.tree_map` over one or two trees becomes structural recursion.
* task dictionaries (`tasks`), python dicts from names to pytrees of arrays,
  are association lists `Tasks`; `flax.core.copy(d, upd)` becomes `dictCopy`.
* the external collaborators (the model's apply function, the loss function,
  dataset iterators, visualizers, checkpointers) are opaque parameters; only
  the orchestration code of the module itself is given concretely.

Metric values are modelled as rationals so that `np.mean` is exact.
-/

/-- Python string containment helper: `n` is a prefix of `h`. -/
def charsLead : List Char → List Char → Bool
  | [], _ => true
  | _ :: _, [] => false
  | a :: as, b :: bs => a == b && charsLead as bs

/-- Python string containment helper: `n` occurs contiguously in `h`. -/
def charsInside (n : List Char) : List Char → Bool
  | [] => charsLead n []
  | b :: bs => charsLead n (b :: bs) || charsInside n bs

/-- Python `needle in hay` on strings. -/
def strIn (needle hay : String) : Bool := charsInside needle.toList hay.toList

/-- `mapM` specialised to `Option`, written by explicit recursion so that it is
easy to reason about.  Models running a python comprehension whose body may
raise. -/
def optMapList {α β : Type} (f : α → Option β) : List α → Option (List β)
  | [] => some []
  | a :: as =>
    match f a with
    | none => none
    | some b =>
      match optMapList f as with
      | none => none
      | some bs => some (b :: bs)

/-- Python dict lookup `d[k]` / `k in d` on an association list. -/
def findVal {α : Type} (k : String) : List (String × α) → Option α
  | [] => none
  | kv :: rest => if k == kv.1 then some kv.2 else findVal k rest

/-- `flax.core.copy(d, upd)` (equivalently `{**d, **upd}`): entries of `d`
whose key occurs in `upd` are replaced in place, and entries of `upd` whose key
is absent from `d` are appended in order. -/
def dictCopy {α : Type} (d upd : List (String × α)) : List (String × α) :=
  d.map (fun kv =>
    match findVal kv.1 upd with
    | some v => (kv.1, v)
    | none => kv) ++
  upd.filter (fun kv => (findVal kv.1 d).isNone)

/-- A `jax.numpy` array: nested lists of integer scalars. -/
inductive Tensor : Type where
  | scalar : Int → Tensor
  | dim : List Tensor → Tensor

/-- The shape of an array, read off the leading elements. -/
def Tensor.shape : Tensor → List Nat
  | .scalar _ => []
  | .dim [] => [0]
  | .dim (t :: ts) => (ts.length + 1) :: t.shape

/-- `ndim`, the number of axes. -/
def Tensor.ndim : Tensor → Nat
  | .scalar _ => 0
  | .dim [] => 1
  | .dim (t :: _) => t.ndim + 1

mutual
/-- `jnp.zeros_like`: an all-zeros array of the same shape. -/
def Tensor.zerosLike : Tensor → Tensor
  | .scalar _ => .scalar 0
  | .dim ts => .dim (Tensor.zerosLikeList ts)
def Tensor.zerosLikeList : List Tensor → List Tensor
  | [] => []
  | t :: ts => t.zerosLike :: Tensor.zerosLikeList ts
end

mutual
/-- Every scalar of the array is `0`. -/
def Tensor.allZero : Tensor → Bool
  | .scalar q => q == 0
  | .dim ts => Tensor.allZeroList ts
def Tensor.allZeroList : List Tensor → Bool
  | [] => true
  | t :: ts => t.allZero && Tensor.allZeroList ts
end

/-- `x[None]`: insert a leading axis of size 1. -/
def Tensor.expandDims0 (t : Tensor) : Tensor := .dim [t]

/-- Every dim of the shape is positive computably. -/
def posDims (s : List Nat) : Bool := s.all (fun d => decide (0 < d))

/-- The shape of an array is positive in every dim. -/
def Tensor.posShape (t : Tensor) : Bool := posDims t.shape

/-- `jnp.broadcast_to(t, s)`: numpy broadcasting.  The target shape must have
at least `t.ndim` axes; the trailing axes of `s` are matched against the axes
of `t`, an axis of size 1 (or a missing leading axis) being tiled to the target
size.  Returns `none` where numpy raises. -/
def Tensor.broadcastTo : Tensor → List Nat → Option Tensor
  | .scalar q, [] => some (.scalar q)
  | .dim _, [] => none
  | t, n :: rest =>
    if t.ndim = rest.length + 1 then
      match t with
      | .scalar _ => none
      | .dim [u] => (u.broadcastTo rest).map (fun v => Tensor.dim (List.replicate n v))
      | .dim ts =>
        if ts.length = n then (optMapList (fun u => u.broadcastTo rest) ts).map Tensor.dim
        else none
    else if t.ndim < rest.length + 1 then
      (t.broadcastTo rest).map (fun v => Tensor.dim (List.replicate n v))
    else none

/-- A `jax` pytree whose leaves are arrays, with `String`-keyed children
(dict nodes).  `jax.tree_map` over dicts visits children in key order; we keep
association lists and require equal key sequences where `jax` requires equal
tree structures. -/
inductive PTree : Type where
  | leaf : Tensor → PTree
  | node : List (String × PTree) → PTree

/-- A task dictionary: a python dict from task names to pytrees of arrays. -/
abbrev Tasks : Type := List (String × PTree)

mutual
/-- `jax.tree_map` with a single tree argument. -/
def PTree.map (f : Tensor → Tensor) : PTree → PTree
  | .leaf a => .leaf (f a)
  | .node cs => .node (PTree.mapChildren f cs)
def PTree.mapChildren (f : Tensor → Tensor) :
    List (String × PTree) → List (String × PTree)
  | [] => []
  | kv :: rest => (kv.1, PTree.map f kv.2) :: PTree.mapChildren f rest
end

mutual
/-- Every leaf of the pytree satisfies `p`. -/
def PTree.allLeaves (p : Tensor → Bool) : PTree → Bool
  | .leaf a => p a
  | .node cs => PTree.allLeavesChildren p cs
def PTree.allLeavesChildren (p : Tensor → Bool) : List (String × PTree) → Bool
  | [] => true
  | kv :: rest => PTree.allLeaves p kv.2 && PTree.allLeavesChildren p rest
end

mutual
/-- The `jax.tree_map` of `remove_text`, specialised to its leaf function:
`lambda x, example: jnp.broadcast_to(example[None], x.shape)` mapped over the
pair of trees `(tasks["language_instruction"], zero_text_encoding)`.  `none`
models the `jax` structure-mismatch or broadcasting error. -/
def PTree.zipBroadcast : PTree → PTree → Option PTree
  | .leaf x, .leaf example0 =>
    (example0.expandDims0.broadcastTo x.shape).map PTree.leaf
  | .node xs, .node es => (PTree.zipBroadcastChildren xs es).map PTree.node
  | _, _ => none
def PTree.zipBroadcastChildren :
    List (String × PTree) → List (String × PTree) → Option (List (String × PTree))
  | [], [] => some []
  | kv :: xs, ke :: es =>
    if kv.1 == ke.1 then
      match PTree.zipBroadcast kv.2 ke.2 with
      | none => none
      | some h =>
        match PTree.zipBroadcastChildren xs es with
        | none => none
        | some t => some ((kv.1, h) :: t)
    else none
  | _, _ => none
end

/-- `remove_text(tasks, zero_text_encoding)` from the source:

    if "language_instruction" in tasks:
        new_language = jax.tree_map(
            lambda x, example: jnp.broadcast_to(example[None], x.shape),
            tasks["language_instruction"], zero_text_encoding)
        tasks = flax.core.copy(tasks, {"language_instruction": new_language})
    return tasks
-/
def remove_text (tasks : Tasks) (zero_text_encoding : PTree) : Option Tasks :=
  match findVal "language_instruction" tasks with
  | none => some tasks
  | some li =>
    (PTree.zipBroadcast li zero_text_encoding).map
      (fun new_language => dictCopy tasks [("language_instruction", new_language)])

/-- `jnp.zeros_like` applied to a task-dict value: defined on arrays only
(`jax` raises on a non-array argument). -/
def treeZerosLike : PTree → Option PTree
  | .leaf a => some (.leaf a.zerosLike)
  | .node _ => none

/-- `remove_images(tasks)` from the source:

    new_images = {k: jnp.zeros_like(v) for k, v in tasks.items() if "image" in k}
    return flax.core.copy(tasks, new_images)
-/
def remove_images (tasks : Tasks) : Option Tasks :=
  match optMapList
      (fun kv => (treeZerosLike kv.2).map (fun z => (kv.1, z)))
      (tasks.filter (fun kv => strIn "image" kv.1)) with
  | none => none
  | some new_images => some (dictCopy tasks new_images)

/-- The list of subarrays along the first axis (`jax` arrays of `ndim ≥ 1`). -/
def Tensor.getRow : Tensor → Option (List Tensor)
  | .scalar _ => none
  | .dim ts => some ts

/-- `jnp.moveaxis(t, 0, 1)`: swap the first two axes.  Defined (returns
`some`) when the array has two leading axes of a regular, nonempty extent; our
representation cannot express the trailing shape of an empty axis, so a
zero-sized leading axis also yields `none`. -/
def Tensor.moveaxis01 : Tensor → Option Tensor
  | .scalar _ => none
  | .dim outer =>
    match optMapList Tensor.getRow outer with
    | none => none
    | some [] => none
    | some (r0 :: rs) =>
      if rs.all (fun r => r.length == r0.length) then
        some (.dim ((List.range r0.length).map
          (fun j => Tensor.dim ((r0 :: rs).map (fun r => r.getD j (.scalar 0))))))
      else none

/-- The `if`/`elif` mode dispatch at the top of `get_policy_sampled_actions`:

    if policy_mode == "text_conditioned":
        tasks = remove_images(tasks)
    elif policy_mode == "image_conditioned":
        tasks = remove_text(tasks, zero_text)
    elif policy_mode == "unconditioned":
        tasks = remove_text(remove_images(tasks), zero_text)
-/
def ablate_tasks (tasks : Tasks) (zero_text : PTree) : Option String → Option Tasks
  | some "text_conditioned" => remove_images tasks
  | some "image_conditioned" => remove_text tasks zero_text
  | some "unconditioned" =>
    match remove_images tasks with
    | none => none
    | some t => remove_text t zero_text
  | _ => some tasks

/-- `get_policy_sampled_actions(state, observations, tasks, *, zero_text,
samples_per_state, policy_mode)`.  The jitted model call (the
`orca_transformer` forward pass followed by
`heads["action"].predict_action(..., sample_shape=(samples_per_state,))`) is
external to this module; it is abstracted as `applyFn`, which receives the
observations, the (possibly ablated) task dictionary and `samples_per_state`,
and returns the sampled-action array with the sample axis first.  The module
then applies `jnp.moveaxis(actions, 0, 1)`. -/
def get_policy_sampled_actions {Obs : Type}
    (applyFn : Obs → Tasks → Nat → Tensor) (observations : Obs) (tasks : Tasks)
    (zero_text : PTree) (samples_per_state : Nat) (policy_mode : Option String) :
    Option Tensor :=
  match ablate_tasks tasks zero_text policy_mode with
  | none => none
  | some ablated => (applyFn observations ablated samples_per_state).moveaxis01

/-- A training batch: a python dict holding the `"tasks"` entry, the other
entries bundled opaquely in `rest`.  `flax.core.copy(batch, {"tasks": t})` is
the structure update `{batch with tasks := t}`. -/
structure Batch (R : Type) : Type where
  tasks : Tasks
  rest : R

/-- A pytree of metric values, as returned by the loss function's info dict;
leaves are exact rationals.  `α` is generalised so that the same tree shape can
hold the per-batch value lists gathered by the validation average. -/
inductive VTree (α : Type) : Type where
  | leaf : α → VTree α
  | node : List (String × VTree α) → VTree α

mutual
/-- Map over the leaves of a metric tree. -/
def VTree.map {α β : Type} (f : α → β) : VTree α → VTree β
  | .leaf x => .leaf (f x)
  | .node cs => .node (VTree.mapChildren f cs)
def VTree.mapChildren {α β : Type} (f : α → β) :
    List (String × VTree α) → List (String × VTree β)
  | [] => []
  | kv :: rest => (kv.1, VTree.map f kv.2) :: VTree.mapChildren f rest
end

mutual
/-- Leafwise `cons` of a metric tree onto a tree of lists; `none` models the
`jax.tree_map` structure-mismatch error. -/
def VTree.zipCons {α : Type} : VTree α → VTree (List α) → Option (VTree (List α))
  | .leaf x, .leaf xs => some (.leaf (x :: xs))
  | .node cs, .node ds => (VTree.zipConsChildren cs ds).map VTree.node
  | _, _ => none
def VTree.zipConsChildren {α : Type} :
    List (String × VTree α) → List (String × VTree (List α)) →
    Option (List (String × VTree (List α)))
  | [], [] => some []
  | kv :: cs, kw :: ds =>
    if kv.1 == kw.1 then
      match VTree.zipCons kv.2 kw.2 with
      | none => none
      | some h =>
        match VTree.zipConsChildren cs ds with
        | none => none
        | some t => some ((kv.1, h) :: t)
    else none
  | _, _ => none
end

/-- Gather a nonempty list of same-structure metric trees into one tree whose
leaves list the corresponding leaves in order: the tree over which
`jax.tree_map(lambda *xs: ..., *metrics)` maps. -/
def VTree.collect {α : Type} : List (VTree α) → Option (VTree (List α))
  | [] => none
  | [t] => some (t.map (fun x => [x]))
  | t :: ts =>
    match VTree.collect ts with
    | none => none
    | some c => VTree.zipCons t c

mutual
/-- Every leaf of the metric tree satisfies `p`. -/
def VTree.allLeaves {α : Type} (p : α → Bool) : VTree α → Bool
  | .leaf x => p x
  | .node cs => VTree.allLeavesChildren p cs
def VTree.allLeavesChildren {α : Type} (p : α → Bool) :
    List (String × VTree α) → Bool
  | [] => true
  | kv :: rest => VTree.allLeaves p kv.2 && VTree.allLeavesChildren p rest
end

/-- `np.mean` over a tuple of scalars. -/
def np_mean (xs : List Rat) : Rat := xs.sum / (xs.length : Rat)

/-- `ValidationCallback.eval_step(state, batch)`.  `loss_fn` (external to the
module) returns a pair whose second component is the info dict of metrics; the
training state and rng threaded through `loss_fn_partial` are bundled into the
`loss_fn` closure.  Follows the source line by line:

    all_tasks = {}
    if "base" in self.modes_to_evaluate:
        all_tasks["base"] = batch["tasks"]
    if "image_conditioned" in self.modes_to_evaluate:
        all_tasks["text_conditioned"] = remove_images(batch["tasks"])
    if "text_conditioned" in self.modes_to_evaluate:
        all_tasks["image_conditioned"] = remove_text(batch["tasks"], self.zero_text)
    if "unconditioned" in self.modes_to_evaluate:
        all_tasks["unconditioned"] = remove_text(remove_images(batch["tasks"]), self.zero_text)
    return {k: loss_fn_partial(batch=flax.core.copy(batch, {"tasks": tasks}))[1]
            for k, tasks in all_tasks.items()}
-/
def eval_step {R : Type} (loss_fn : Batch R → Rat × VTree Rat)
    (modes_to_evaluate : List String) (zero_text : PTree) (batch : Batch R) :
    Option (List (String × VTree Rat)) :=
  let t_base := if "base" ∈ modes_to_evaluate then [("base", batch.tasks)] else []
  match
    (if "image_conditioned" ∈ modes_to_evaluate then
      (remove_images batch.tasks).map (fun t => [("text_conditioned", t)])
    else some []),
    (if "text_conditioned" ∈ modes_to_evaluate then
      (remove_text batch.tasks zero_text).map (fun t => [("image_conditioned", t)])
    else some []),
    (if "unconditioned" ∈ modes_to_evaluate then
      (match remove_images batch.tasks with
       | none => none
       | some t => (remove_text t zero_text).map (fun u => [("unconditioned", u)]))
    else some []) with
  | some t_text, some t_image, some t_un =>
    some ((t_base ++ t_text ++ t_image ++ t_un).map
      (fun kt => (kt.1, (loss_fn { batch with tasks := kt.2 }).2)))
  | _, _, _ => none

/-- `ValidationCallback.__call__(train_state, step)`.  Each validation dataset
iterator is an infinite stream of batches (`Nat → Batch R`, the source's
shuffled/repeated iterator); `zip(range(self.num_val_batches), val_data_iter)`
draws exactly the first `num_val_batches` batches.  The per-batch metric dicts
are averaged leafwise by `jax.tree_map(lambda *xs: np.mean(xs), *metrics)` and
stored under `"validation_{name}"`. -/
def ValidationCallback.call {R : Type}
    (eval_step_fn : Batch R → Option (List (String × VTree Rat)))
    (val_iterators : List (String × (Nat → Batch R))) (num_val_batches : Nat) :
    Option (List (String × VTree Rat)) :=
  optMapList (fun ni =>
      match optMapList (fun i => eval_step_fn (ni.2 i))
          (List.range num_val_batches) with
      | none => none
      | some metrics =>
        match VTree.collect (metrics.map VTree.node) with
        | none => none
        | some c => some ("validation_" ++ ni.1, VTree.map np_mean c))
    val_iterators

/-- The `Visualizer` helper object from `orca.utils.visualization_lib`,
external to this module: an opaque bundle of the three methods
`VisualizationCallback.__call__` invokes.  `P` is the type of policy
functions, `R` of raw evaluation infos, `M` of wandb metric reports and `I` of
wandb image reports. -/
structure Visualizer (P R M I : Type) : Type where
  raw_evaluations : P → Int → R
  metrics_for_wandb : R → M
  visualize_for_wandb : P → Int → I

/-- A wandb dictionary value produced by `VisualizationCallback.__call__`:
either a metrics report or an images report. -/
inductive VizValue (M I : Type) : Type where
  | metrics : M → VizValue M I
  | images : I → VizValue M I

/-- A policy function over observations `Obs`: what
`get_policy_sampled_actions` computes once the state and keyword arguments are
fixed by `functools.partial`. -/
def PolicyFn (Obs : Type) : Type := Obs → Tasks → Option Tensor

/-- `VisualizationCallback.__call__(train_state, step)`.  `batched_apply`
(from `orca.utils.train_utils`, external to this module) wraps a policy
function for a fixed evaluation batch size and is abstracted as a parameter.
For every mode in `modes_to_evaluate` the callback builds the batched policy
function for that mode, then for every dataset visualizer reports offline
metrics when `trajs_for_metrics > 0` and visualizations when
`trajs_for_viz > 0`. -/
def VisualizationCallback.call {Obs P R M I : Type}
    (batched_apply : PolicyFn Obs → Nat → P) (eval_batch_size : Nat)
    (applyFn : Obs → Tasks → Nat → Tensor) (zero_text : PTree)
    (samples_per_state : Nat) (modes_to_evaluate : List String)
    (visualizers : List (String × Visualizer P R M I))
    (trajs_for_metrics trajs_for_viz : Int) : List (String × VizValue M I) :=
  let modal_policy_fns := modes_to_evaluate.map (fun mode =>
    (mode, batched_apply
      (fun observations tasks =>
        get_policy_sampled_actions applyFn observations tasks zero_text
          samples_per_state (some mode))
      eval_batch_size))
  visualizers.flatMap (fun nv =>
    modal_policy_fns.flatMap (fun mp =>
      (if 0 < trajs_for_metrics then
        [("offline_metrics_" ++ nv.1 ++ "/" ++ mp.1,
          VizValue.metrics (nv.2.metrics_for_wandb
            (nv.2.raw_evaluations mp.2 trajs_for_metrics)))]
      else []) ++
      (if 0 < trajs_for_viz then
        [("visualizations_" ++ nv.1 ++ "/" ++ mp.1,
          VizValue.images (nv.2.visualize_for_wandb mp.2 trajs_for_viz))]
      else [])))

/-- A `RolloutVisualizer` from `orca.utils.visualization_lib`, external to
this module: its environment name, action chunk length, and `run_rollouts`
method, which receives a policy function and the number of rollouts and
returns a rollout info report of type `R`. -/
structure RolloutVisualizer (P R : Type) : Type where
  env_name : String
  action_chunk : Nat
  run_rollouts : P → Nat → R

/-- `RolloutVisualizationCallback.__call__(train_state, step)`.  The policy
function of each mode is `get_policy_sampled_actions` with
`samples_per_state=1`; each rollout visualizer reports under
`"rollouts_{env_name}_chunk{action_chunk}/{mode}"`. -/
def RolloutVisualizationCallback.call {Obs R : Type}
    (applyFn : Obs → Tasks → Nat → Tensor) (zero_text : PTree)
    (modes_to_evaluate : List String)
    (rollout_visualizers : List (RolloutVisualizer (PolicyFn Obs) R))
    (trajs_for_rollouts : Nat) : List (String × R) :=
  let modal_policy_fns := modes_to_evaluate.map (fun mode =>
    (mode, (fun observations tasks =>
        get_policy_sampled_actions applyFn observations tasks zero_text
          1 (some mode) : PolicyFn Obs)))
  rollout_visualizers.flatMap (fun rv =>
    modal_policy_fns.map (fun mp =>
      ("rollouts_" ++ rv.env_name ++ "_chunk" ++ toString rv.action_chunk
         ++ "/" ++ mp.1,
       rv.run_rollouts mp.2 trajs_for_rollouts)))

/-- The training state passed to `SaveCallback.__call__`: its `params` field
and the remaining fields (optimizer state, rng, step, apply function),
opaque. -/
structure TrainState (P R : Type) : Type where
  params : P
  rest : R

/-- An externally visible checkpoint save performed via the two orbax
checkpoint managers of `SaveCallback`. -/
inductive SaveEvent (P S : Type) : Type where
  | save_params : Nat → P → SaveEvent P S
  | save_state : Nat → S → SaveEvent P S

/-- A file handle returned by `SaveCallback.open`. -/
inductive FileHandle : Type where
  | gfile : String → String → FileHandle
  | devnull : String → FileHandle

/-- The `SaveCallback` dataclass: its `save_dir` field, together with the
ambient `jax.process_index()`. -/
structure SaveCallback : Type where
  save_dir : Option String
  process_index : Nat

/-- `SaveCallback.__call__(train_state, step)`, with the checkpoint saves it
performs reified as a list of events:

    if self.save_dir is not None and jax.process_index() == 0:
        self.params_checkpointer.save(step, train_state.params, ...)
        self.state_checkpointer.save(step, train_state, ...)
-/
def SaveCallback.call {P R : Type} (cb : SaveCallback) (train_state : TrainState P R)
    (step : Nat) : List (SaveEvent P (TrainState P R)) :=
  if cb.save_dir.isSome ∧ cb.process_index = 0 then
    [.save_params step train_state.params, .save_state step train_state]
  else []

/-- `tf.io.gfile.join`. -/
def gfile_join (dir fname : String) : String := dir ++ "/" ++ fname

/-- `SaveCallback.open(fname, mode)`:

    if self.save_dir is not None and jax.process_index() == 0:
        return tf.io.gfile.GFile(tf.io.gfile.join(self.save_dir, fname), mode)
    else:
        return open(os.devnull, mode)
-/
def SaveCallback.openFile (cb : SaveCallback) (fname mode : String) : FileHandle :=
  match cb.save_dir with
  | some d => if cb.process_index = 0 then .gfile (gfile_join d fname) mode
              else .devnull mode
  | none => .devnull mode

mutual
/-- Two pytrees have the same structure, the same keys and leafwise equal
array shapes. -/
def PTree.sameShapes : PTree → PTree → Bool
  | .leaf a, .leaf b => a.shape == b.shape
  | .node cs, .node ds => PTree.sameShapesChildren cs ds
  | _, _ => false
def PTree.sameShapesChildren :
    List (String × PTree) → List (String × PTree) → Bool
  | [], [] => true
  | kv :: cs, kw :: ds =>
    kv.1 == kw.1 && PTree.sameShapes kv.2 kw.2 && PTree.sameShapesChildren cs ds
  | _, _ => false
end

/-- An array of `ndim ≥ 2` presented as a matrix of subarrays: row `i` lists
the subarrays `t[i, j, ...]`. -/
def Tensor.ofMatrix (m : List (List Tensor)) : Tensor :=
  .dim (m.map Tensor.dim)

/-- The transpose of a matrix of subarrays whose rows have length `b`:
`(matTranspose m b)[j][i] = m[i][j]`. -/
def matTranspose (m : List (List Tensor)) (b : Nat) : List (List Tensor) :=
  (List.range b).map (fun j => m.map (fun r => r.getD j (.scalar 0)))

theorem optMapList_forall₂ {α β : Type} {f : α → Option β} :
    ∀ {l : List α} {l' : List β}, optMapList f l = some l' →
      List.Forall₂ (fun a b => f a = some b) l l' := by
  intro l
  induction l with
  | nil =>
    intro l' h
    simp only [optMapList, Option.some.injEq] at h
    subst h
    constructor
  | cons a as ih =>
    intro l' h
    simp only [optMapList] at h
    cases hfa : f a with
    | none => simp [hfa] at h
    | some b =>
      cases hrec : optMapList f as with
      | none => simp [hfa, hrec] at h
      | some bs =>
        simp only [hfa, hrec, Option.some.injEq] at h
        subst h
        exact List.Forall₂.cons hfa (ih hrec)

theorem optMapList_length {α β : Type} {f : α → Option β} {l : List α} {l' : List β}
    (h : optMapList f l = some l') : l'.length = l.length :=
  (optMapList_forall₂ h).length_eq.symm

theorem findVal_mem {α : Type} {k : String} {l : List (String × α)} {v : α}
    (h : findVal k l = some v) : (k, v) ∈ l := by
  induction l with
  | nil => simp [findVal] at h
  | cons kv rest ih =>
    simp only [findVal] at h
    split at h
    · rename_i heq
      injection h with h
      subst h
      have hk : k = kv.1 := beq_iff_eq.mp heq
      rw [hk]
      exact Prod.mk.eta ▸ List.mem_cons_self kv rest
    · exact List.mem_cons_of_mem kv (ih h)

theorem findVal_isSome_of_mem {α : Type} {k : String} {v : α} {l : List (String × α)}
    (h : (k, v) ∈ l) : (findVal k l).isSome := by
  induction l with
  | nil => cases h
  | cons kv rest ih =>
    rcases List.mem_cons.mp h with heq | hmem
    · simp [findVal, ← heq]
    · simp only [findVal]
      split
      · simp
      · exact ih hmem

theorem findVal_none_iff {α : Type} {k : String} {l : List (String × α)} :
    findVal k l = none ↔ ∀ kv ∈ l, k ≠ kv.1 := by
  induction l with
  | nil => simp [findVal]
  | cons kv rest ih =>
    simp only [findVal]
    by_cases hk : k = kv.1
    · simp [hk]
    · simp only [beq_iff_eq, if_neg hk, ih, List.mem_cons]
      constructor
      · intro h kw hkw
        rcases hkw with rfl | hkw
        · exact hk
        · exact h kw hkw
      · intro h kw hkw
        exact h kw (Or.inr hkw)

theorem findVal_nodup_eq {α : Type} {k : String} {v : α} {l : List (String × α)}
    (hnd : (l.map Prod.fst).Nodup) (h : (k, v) ∈ l) : findVal k l = some v := by
  induction l with
  | nil => cases h
  | cons kv rest ih =>
    simp only [List.map_cons, List.nodup_cons] at hnd
    rcases List.mem_cons.mp h with heq | hmem
    · rw [← heq]
      simp [findVal]
    · simp only [findVal]
      split
      · rename_i heq2
        exfalso
        apply hnd.1
        rw [← beq_iff_eq.mp heq2]
        exact List.mem_map_of_mem Prod.fst hmem
      · exact ih hnd.2 hmem

theorem findVal_forall₂ {α β : Type} {R : (String × α) → (String × β) → Prop}
    {l : List (String × α)} {l' : List (String × β)}
    (h : List.Forall₂ (fun a b => b.1 = a.1 ∧ R a b) l l') (k : String) :
    (findVal k l = none ∧ findVal k l' = none) ∨
    ∃ v v', findVal k l = some v ∧ findVal k l' = some v' ∧ R (k, v) (k, v') := by
  induction h with
  | nil => exact Or.inl ⟨rfl, rfl⟩
  | @cons a b as bs hab htail ih =>
    by_cases hk : k = a.1
    · right
      refine ⟨a.2, b.2, ?_, ?_, ?_⟩
      · simp [findVal, hk]
      · simp [findVal, hab.1, hk]
      · have ha : (k, a.2) = a := by rw [hk]
        have hb : (k, b.2) = b := by rw [hk, ← hab.1]
        rw [ha, hb]
        exact hab.2
    · have hk' : k ≠ b.1 := fun hc => hk (hab.1 ▸ hc)
      have h1 : findVal k (a :: as) = findVal k as := by simp [findVal, hk]
      have h2 : findVal k (b :: bs) = findVal k bs := by simp [findVal, hk']
      rw [h1, h2]
      exact ih

theorem dictCopy_single {α : Type} {d : List (String × α)} {k0 : String} {v0 w : α}
    (h : findVal k0 d = some v0) :
    dictCopy d [(k0, w)] =
      d.map (fun kv => if kv.1 = k0 then (kv.1, w) else kv) := by
  unfold dictCopy
  have hfil : List.filter (fun kv => (findVal kv.1 d).isNone) [(k0, w)] = [] := by
    simp [List.filter, h]
  rw [hfil, List.append_nil]
  apply List.map_congr_left
  intro kv _
  by_cases hk : kv.1 = k0 <;> simp [findVal, hk]

mutual
theorem Tensor.zerosLike_shape : ∀ t : Tensor, t.zerosLike.shape = t.shape
  | .scalar _ => rfl
  | .dim [] => rfl
  | .dim (t :: ts) => by
    simp only [Tensor.zerosLike, Tensor.zerosLikeList, Tensor.shape,
      Tensor.zerosLike_shape t, Tensor.zerosLikeList_length ts]
theorem Tensor.zerosLikeList_length :
    ∀ ts : List Tensor, (Tensor.zerosLikeList ts).length = ts.length
  | [] => rfl
  | t :: ts => by
    simp only [Tensor.zerosLikeList, List.length_cons, Tensor.zerosLikeList_length ts]
end

mutual
theorem Tensor.zerosLike_allZero : ∀ t : Tensor, t.zerosLike.allZero = true
  | .scalar _ => rfl
  | .dim ts => by
    simp only [Tensor.zerosLike, Tensor.allZero, Tensor.zerosLikeList_allZero ts]
theorem Tensor.zerosLikeList_allZero :
    ∀ ts : List Tensor, Tensor.allZeroList (Tensor.zerosLikeList ts) = true
  | [] => rfl
  | t :: ts => by
    simp only [Tensor.zerosLikeList, Tensor.allZeroList, Tensor.zerosLike_allZero t,
      Tensor.zerosLikeList_allZero ts, Bool.and_self]
end

mutual
theorem Tensor.zerosLike_idem : ∀ t : Tensor, t.zerosLike.zerosLike = t.zerosLike
  | .scalar _ => rfl
  | .dim ts => by
    simp only [Tensor.zerosLike, Tensor.zerosLikeList_idem ts]
theorem Tensor.zerosLikeList_idem :
    ∀ ts : List Tensor,
      Tensor.zerosLikeList (Tensor.zerosLikeList ts) = Tensor.zerosLikeList ts
  | [] => rfl
  | t :: ts => by
    simp only [Tensor.zerosLikeList, Tensor.zerosLike_idem t, Tensor.zerosLikeList_idem ts]
end

theorem Tensor.allZeroList_iff {ts : List Tensor} :
    Tensor.allZeroList ts = true ↔ ∀ t ∈ ts, Tensor.allZero t = true := by
  induction ts with
  | nil => simp [Tensor.allZeroList]
  | cons t ts ih => simp [Tensor.allZeroList, ih, Bool.and_eq_true]

theorem forall₂_mem_left {α β : Type} {R : α → β → Prop} {l : List α} {l' : List β}
    (h : List.Forall₂ R l l') {a : α} (ha : a ∈ l) : ∃ b ∈ l', R a b := by
  induction h with
  | nil => cases ha
  | cons hr htail ih =>
    rcases List.mem_cons.mp ha with rfl | ha'
    · exact ⟨_, List.mem_cons_self _ _, hr⟩
    · rcases ih ha' with ⟨b, hb, hRb⟩
      exact ⟨b, List.mem_cons_of_mem _ hb, hRb⟩

theorem forall₂_mem_right {α β : Type} {R : α → β → Prop} {l : List α} {l' : List β}
    (h : List.Forall₂ R l l') {b : β} (hb : b ∈ l') : ∃ a ∈ l, R a b := by
  induction h with
  | nil => cases hb
  | cons hr htail ih =>
    rcases List.mem_cons.mp hb with rfl | hb'
    · exact ⟨_, List.mem_cons_self _ _, hr⟩
    · rcases ih hb' with ⟨a, ha, hRa⟩
      exact ⟨a, List.mem_cons_of_mem _ ha, hRa⟩

theorem Tensor.dim_replicate_shape {n : Nat} (hn : 0 < n) (v : Tensor) :
    (Tensor.dim (List.replicate n v)).shape = n :: v.shape := by
  cases n with
  | zero => exact absurd hn (by omega)
  | succ m => simp [List.replicate_succ, Tensor.shape, List.length_replicate]

theorem posDims_cons {n : Nat} {rest : List Nat} (hp : posDims (n :: rest) = true) :
    0 < n ∧ posDims rest = true := by
  simp only [posDims, List.all_cons, Bool.and_eq_true, decide_eq_true_eq] at hp ⊢
  exact hp

theorem Tensor.broadcastTo_shape {s : List Nat} :
    ∀ {t u : Tensor}, t.broadcastTo s = some u → posDims s = true → u.shape = s := by
  induction s with
  | nil =>
    intro t u h _
    cases t with
    | scalar q =>
      simp only [Tensor.broadcastTo, Option.some.injEq] at h
      subst h
      rfl
    | dim ts => simp [Tensor.broadcastTo] at h
  | cons n rest ih =>
    intro t u h hp
    obtain ⟨hn, hrest⟩ := posDims_cons hp
    rw [Tensor.broadcastTo.eq_def] at h
    cases t with
    | scalar q =>
      simp only [Tensor.ndim] at h
      split at h
      · exact absurd h (by simp)
      · split at h
        · simp only [Option.map_eq_some'] at h
          obtain ⟨v, hv, rfl⟩ := h
          rw [Tensor.dim_replicate_shape hn v, ih hv hrest]
        · exact absurd h (by simp)
    | dim ts =>
      rcases ts with _ | ⟨u1, ts1⟩
      · simp only [Tensor.ndim] at h
        split at h
        · split at h
          · rename_i hlen
            exfalso
            simp at hlen
            omega
          · exact absurd h (by simp)
        · split at h
          · simp only [Option.map_eq_some'] at h
            obtain ⟨v, hv, rfl⟩ := h
            rw [Tensor.dim_replicate_shape hn v, ih hv hrest]
          · exact absurd h (by simp)
      · rcases ts1 with _ | ⟨u2, ts2⟩
        · simp only [Tensor.ndim] at h
          split at h
          · simp only [Option.map_eq_some'] at h
            obtain ⟨v, hv, rfl⟩ := h
            rw [Tensor.dim_replicate_shape hn v, ih hv hrest]
          · split at h
            · simp only [Option.map_eq_some'] at h
              obtain ⟨v, hv, rfl⟩ := h
              rw [Tensor.dim_replicate_shape hn v, ih hv hrest]
            · exact absurd h (by simp)
        · simp only [Tensor.ndim] at h
          split at h
          · split at h
            · rename_i hlen
              simp only [Option.map_eq_some'] at h
              obtain ⟨us, hus, rfl⟩ := h
              have hf := optMapList_forall₂ hus
              cases hf with
              | cons hhead htail =>
                rename_i b bs
                simp only [Tensor.shape]
                have hlen2 : bs.length = ts2.length + 1 := htail.length_eq.symm
                have hsh : b.shape = rest := ih hhead hrest
                rw [hsh, hlen2]
                have : ts2.length + 1 + 1 = n := by
                  simpa using hlen
                rw [this]
            · exact absurd h (by simp)
          · split at h
            · simp only [Option.map_eq_some'] at h
              obtain ⟨v, hv, rfl⟩ := h
              rw [Tensor.dim_replicate_shape hn v, ih hv hrest]
            · exact absurd h (by simp)

theorem Tensor.allZeroList_replicate {n : Nat} {v : Tensor} (hv : v.allZero = true) :
    Tensor.allZeroList (List.replicate n v) = true := by
  induction n with
  | zero => rfl
  | succ m ih => simp [List.replicate_succ, Tensor.allZeroList, hv, ih]

theorem Tensor.broadcastTo_allZero {s : List Nat} :
    ∀ {t u : Tensor}, t.broadcastTo s = some u → t.allZero = true → u.allZero = true := by
  induction s with
  | nil =>
    intro t u h hz
    cases t with
    | scalar q =>
      simp only [Tensor.broadcastTo, Option.some.injEq] at h
      subst h
      exact hz
    | dim ts => simp [Tensor.broadcastTo] at h
  | cons n rest ih =>
    intro t u h hz
    rw [Tensor.broadcastTo.eq_def] at h
    cases t with
    | scalar q =>
      simp only [Tensor.ndim] at h
      split at h
      · exact absurd h (by simp)
      · split at h
        · simp only [Option.map_eq_some'] at h
          obtain ⟨v, hv, rfl⟩ := h
          simpa only [Tensor.allZero] using Tensor.allZeroList_replicate (ih hv hz)
        · exact absurd h (by simp)
    | dim ts =>
      rcases ts with _ | ⟨u1, ts1⟩
      · simp only [Tensor.ndim] at h
        split at h
        · split at h
          · simp only [optMapList, Option.map_some', Option.some.injEq] at h
            subst h
            rfl
          · exact absurd h (by simp)
        · split at h
          · simp only [Option.map_eq_some'] at h
            obtain ⟨v, hv, rfl⟩ := h
            simpa only [Tensor.allZero] using Tensor.allZeroList_replicate (ih hv hz)
          · exact absurd h (by simp)
      · rcases ts1 with _ | ⟨u2, ts2⟩
        · simp only [Tensor.allZero, Tensor.allZeroList, Bool.and_eq_true] at hz
          simp only [Tensor.ndim] at h
          split at h
          · simp only [Option.map_eq_some'] at h
            obtain ⟨v, hv, rfl⟩ := h
            simpa only [Tensor.allZero] using Tensor.allZeroList_replicate (ih hv hz.1)
          · split at h
            · simp only [Option.map_eq_some'] at h
              obtain ⟨v, hv, rfl⟩ := h
              have hz2 : Tensor.allZero (Tensor.dim [u1]) = true := by
                simp [Tensor.allZero, Tensor.allZeroList, hz.1]
              simpa only [Tensor.allZero] using Tensor.allZeroList_replicate (ih hv hz2)
            · exact absurd h (by simp)
        · simp only [Tensor.ndim] at h
          split at h
          · split at h
            · simp only [Option.map_eq_some'] at h
              obtain ⟨us, hus, rfl⟩ := h
              have hf := optMapList_forall₂ hus
              have hmem : ∀ b ∈ us, Tensor.allZero b = true := by
                intro b hb
                obtain ⟨a, ha, hab⟩ := forall₂_mem_right hf hb
                have haz : a.allZero = true := by
                  have := (Tensor.allZeroList_iff).mp ?_ a ha
                  · exact this
                  · simpa only [Tensor.allZero] using hz
                exact ih hab haz
              simpa only [Tensor.allZero] using (Tensor.allZeroList_iff).mpr hmem
            · exact absurd h (by simp)
          · split at h
            · simp only [Option.map_eq_some'] at h
              obtain ⟨v, hv, rfl⟩ := h
              simpa only [Tensor.allZero] using Tensor.allZeroList_replicate (ih hv hz)
            · exact absurd h (by simp)

mutual
theorem PTree.zipBroadcast_sameShapes :
    ∀ (x z y : PTree), PTree.zipBroadcast x z = some y →
      x.allLeaves Tensor.posShape = true → PTree.sameShapes x y = true
  | .leaf a, .leaf e, y, h, hp => by
    simp only [PTree.zipBroadcast, Option.map_eq_some'] at h
    obtain ⟨v, hv, rfl⟩ := h
    have hsh : v.shape = a.shape :=
      Tensor.broadcastTo_shape hv (by simpa [PTree.allLeaves, Tensor.posShape] using hp)
    simp [PTree.sameShapes, hsh]
  | .leaf _, .node _, _, h, _ => by simp [PTree.zipBroadcast] at h
  | .node _, .leaf _, _, h, _ => by simp [PTree.zipBroadcast] at h
  | .node cs, .node ds, y, h, hp => by
    simp only [PTree.zipBroadcast, Option.map_eq_some'] at h
    obtain ⟨l, hl, rfl⟩ := h
    simp only [PTree.sameShapes]
    exact PTree.zipBroadcastChildren_sameShapes cs ds l hl
      (by simpa [PTree.allLeaves] using hp)
theorem PTree.zipBroadcastChildren_sameShapes :
    ∀ (cs ds l : List (String × PTree)), PTree.zipBroadcastChildren cs ds = some l →
      PTree.allLeavesChildren Tensor.posShape cs = true →
      PTree.sameShapesChildren cs l = true
  | [], [], l, h, _ => by
    simp only [PTree.zipBroadcastChildren, Option.some.injEq] at h
    subst h
    rfl
  | [], _ :: _, _, h, _ => by simp [PTree.zipBroadcastChildren] at h
  | _ :: _, [], _, h, _ => by simp [PTree.zipBroadcastChildren] at h
  | kv :: cs, kw :: ds, l, h, hp => by
    simp only [PTree.allLeavesChildren, Bool.and_eq_true] at hp
    simp only [PTree.zipBroadcastChildren] at h
    split at h
    · cases hzb : PTree.zipBroadcast kv.2 kw.2 with
      | none => rw [hzb] at h; exact absurd h (by simp)
      | some hd =>
        rw [hzb] at h
        cases hzc : PTree.zipBroadcastChildren cs ds with
        | none => rw [hzc] at h; exact absurd h (by simp)
        | some tl =>
          rw [hzc] at h
          simp only [Option.some.injEq] at h
          subst h
          simp only [PTree.sameShapesChildren, Bool.and_eq_true]
          refine ⟨⟨by simp, ?_⟩, ?_⟩
          · exact PTree.zipBroadcast_sameShapes kv.2 kw.2 hd hzb hp.1
          · exact PTree.zipBroadcastChildren_sameShapes cs ds tl hzc hp.2
    · exact absurd h (by simp)
end

mutual
theorem PTree.zipBroadcast_idem :
    ∀ (x z y : PTree), PTree.zipBroadcast x z = some y →
      x.allLeaves Tensor.posShape = true → PTree.zipBroadcast y z = some y
  | .leaf a, .leaf e, y, h, hp => by
    simp only [PTree.zipBroadcast, Option.map_eq_some'] at h
    obtain ⟨v, hv, rfl⟩ := h
    have hsh : v.shape = a.shape :=
      Tensor.broadcastTo_shape hv (by simpa [PTree.allLeaves, Tensor.posShape] using hp)
    simp only [PTree.zipBroadcast, hsh, hv, Option.map_some']
  | .leaf _, .node _, _, h, _ => by simp [PTree.zipBroadcast] at h
  | .node _, .leaf _, _, h, _ => by simp [PTree.zipBroadcast] at h
  | .node cs, .node ds, y, h, hp => by
    simp only [PTree.zipBroadcast, Option.map_eq_some'] at h
    obtain ⟨l, hl, rfl⟩ := h
    have := PTree.zipBroadcastChildren_idem cs ds l hl (by simpa [PTree.allLeaves] using hp)
    simp only [PTree.zipBroadcast, this, Option.map_some']
theorem PTree.zipBroadcastChildren_idem :
    ∀ (cs ds l : List (String × PTree)), PTree.zipBroadcastChildren cs ds = some l →
      PTree.allLeavesChildren Tensor.posShape cs = true →
      PTree.zipBroadcastChildren l ds = some l
  | [], [], l, h, _ => by
    simp only [PTree.zipBroadcastChildren, Option.some.injEq] at h
    subst h
    rfl
  | [], _ :: _, _, h, _ => by simp [PTree.zipBroadcastChildren] at h
  | _ :: _, [], _, h, _ => by simp [PTree.zipBroadcastChildren] at h
  | kv :: cs, kw :: ds, l, h, hp => by
    simp only [PTree.allLeavesChildren, Bool.and_eq_true] at hp
    simp only [PTree.zipBroadcastChildren] at h
    split at h
    · rename_i hkey
      cases hzb : PTree.zipBroadcast kv.2 kw.2 with
      | none => rw [hzb] at h; exact absurd h (by simp)
      | some hd =>
        rw [hzb] at h
        cases hzc : PTree.zipBroadcastChildren cs ds with
        | none => rw [hzc] at h; exact absurd h (by simp)
        | some tl =>
          rw [hzc] at h
          simp only [Option.some.injEq] at h
          subst h
          have h1 := PTree.zipBroadcast_idem kv.2 kw.2 hd hzb hp.1
          have h2 := PTree.zipBroadcastChildren_idem cs ds tl hzc hp.2
          simp only [PTree.zipBroadcastChildren, hkey, if_true, h1, h2]
    · exact absurd h (by simp)
end

mutual
theorem PTree.zipBroadcast_allZero :
    ∀ (x z y : PTree), PTree.zipBroadcast x z = some y →
      z.allLeaves Tensor.allZero = true → y.allLeaves Tensor.allZero = true
  | .leaf a, .leaf e, y, h, hz => by
    simp only [PTree.zipBroadcast, Option.map_eq_some'] at h
    obtain ⟨v, hv, rfl⟩ := h
    have hez : (Tensor.expandDims0 e).allZero = true := by
      simp only [PTree.allLeaves] at hz
      simp [Tensor.expandDims0, Tensor.allZero, Tensor.allZeroList, hz]
    simpa only [PTree.allLeaves] using Tensor.broadcastTo_allZero hv hez
  | .leaf _, .node _, _, h, _ => by simp [PTree.zipBroadcast] at h
  | .node _, .leaf _, _, h, _ => by simp [PTree.zipBroadcast] at h
  | .node cs, .node ds, y, h, hz => by
    simp only [PTree.zipBroadcast, Option.map_eq_some'] at h
    obtain ⟨l, hl, rfl⟩ := h
    simp only [PTree.allLeaves]
    exact PTree.zipBroadcastChildren_allZero cs ds l hl
      (by simpa [PTree.allLeaves] using hz)
theorem PTree.zipBroadcastChildren_allZero :
    ∀ (cs ds l : List (String × PTree)), PTree.zipBroadcastChildren cs ds = some l →
      PTree.allLeavesChildren Tensor.allZero ds = true →
      PTree.allLeavesChildren Tensor.allZero l = true
  | [], [], l, h, _ => by
    simp only [PTree.zipBroadcastChildren, Option.some.injEq] at h
    subst h
    rfl
  | [], _ :: _, _, h, _ => by simp [PTree.zipBroadcastChildren] at h
  | _ :: _, [], _, h, _ => by simp [PTree.zipBroadcastChildren] at h
  | kv :: cs, kw :: ds, l, h, hz => by
    simp only [PTree.allLeavesChildren, Bool.and_eq_true] at hz
    simp only [PTree.zipBroadcastChildren] at h
    split at h
    · cases hzb : PTree.zipBroadcast kv.2 kw.2 with
      | none => rw [hzb] at h; exact absurd h (by simp)
      | some hd =>
        rw [hzb] at h
        cases hzc : PTree.zipBroadcastChildren cs ds with
        | none => rw [hzc] at h; exact absurd h (by simp)
        | some tl =>
          rw [hzc] at h
          simp only [Option.some.injEq] at h
          subst h
          simp only [PTree.allLeavesChildren, Bool.and_eq_true]
          exact ⟨PTree.zipBroadcast_allZero kv.2 kw.2 hd hzb hz.1,
            PTree.zipBroadcastChildren_allZero cs ds tl hzc hz.2⟩
    · exact absurd h (by simp)
end

theorem remove_text_no_lang {tasks : Tasks} {z : PTree}
    (h : findVal "language_instruction" tasks = none) :
    remove_text tasks z = some tasks := by
  simp [remove_text, h]

theorem remove_text_eq {tasks : Tasks} {z li : PTree}
    (h : findVal "language_instruction" tasks = some li) :
    remove_text tasks z = (PTree.zipBroadcast li z).map (fun nl =>
      tasks.map (fun kv =>
        if kv.1 = "language_instruction" then (kv.1, nl) else kv)) := by
  simp only [remove_text, h]
  cases hz : PTree.zipBroadcast li z with
  | none => rfl
  | some nl =>
    simp only [Option.map_some', Option.some.injEq]
    exact dictCopy_single h

theorem remove_images_forall₂ {tasks t' : Tasks}
    (hnd : (tasks.map Prod.fst).Nodup) (h : remove_images tasks = some t') :
    List.Forall₂ (fun kv kv' => kv'.1 = kv.1 ∧
      (strIn "image" kv.1 = true →
        ∃ a : Tensor, kv.2 = PTree.leaf a ∧ kv'.2 = PTree.leaf a.zerosLike) ∧
      (strIn "image" kv.1 = false → kv' = kv)) tasks t' := by
  rw [remove_images] at h
  cases himgs : optMapList (fun kv => (treeZerosLike kv.2).map (fun z => (kv.1, z)))
      (tasks.filter (fun kv => strIn "image" kv.1)) with
  | none => rw [himgs] at h; exact absurd h (by simp)
  | some imgs =>
    rw [himgs] at h
    simp only [Option.some.injEq] at h
    subst h
    have hf := optMapList_forall₂ himgs
    have hf' : List.Forall₂ (fun a b => b.1 = a.1 ∧
        ∃ t : Tensor, a.2 = PTree.leaf t ∧ b.2 = PTree.leaf t.zerosLike)
        (tasks.filter (fun kv => strIn "image" kv.1)) imgs := by
      refine hf.imp ?_
      intro a b hab
      cases ha : a.2 with
      | leaf t =>
        rw [ha] at hab
        simp only [treeZerosLike, Option.map_some', Option.some.injEq] at hab
        subst hab
        exact ⟨rfl, t, rfl, rfl⟩
      | node cs =>
        rw [ha] at hab
        simp [treeZerosLike] at hab
    have hfil : imgs.filter (fun kv => (findVal kv.1 tasks).isNone) = [] := by
      rw [List.filter_eq_nil_iff]
      intro b hb
      obtain ⟨a, ha, hab⟩ := forall₂_mem_right hf' hb
      have hmem : (a.1, a.2) ∈ tasks := Prod.mk.eta ▸ List.mem_of_mem_filter ha
      have hsome := findVal_isSome_of_mem hmem
      rw [hab.1]
      intro hcontra
      rw [Option.isNone_iff_eq_none] at hcontra
      rw [hcontra] at hsome
      simp at hsome
    unfold dictCopy
    rw [hfil, List.append_nil]
    rw [List.forall₂_map_right_iff]
    rw [List.forall₂_same]
    intro kv hkv
    by_cases himg : strIn "image" kv.1 = true
    · have hkvf : kv ∈ tasks.filter (fun kv => strIn "image" kv.1) :=
        List.mem_filter.mpr ⟨hkv, himg⟩
      have hndf : ((tasks.filter (fun kv => strIn "image" kv.1)).map Prod.fst).Nodup :=
        ((List.filter_sublist tasks).map Prod.fst).nodup hnd
      have hfind : findVal kv.1 (tasks.filter (fun kv => strIn "image" kv.1)) =
          some kv.2 := findVal_nodup_eq hndf (Prod.mk.eta ▸ hkvf)
      rcases findVal_forall₂ hf' kv.1 with ⟨hnone, _⟩ | ⟨v, v', hv, hv', hrel⟩
      · rw [hfind] at hnone
        cases hnone
      · rw [hfind] at hv
        injection hv with hv
        subst hv
        simp only [hv']
        obtain ⟨t, ht, ht'⟩ := hrel
        refine ⟨by simp, fun _ => ⟨t, by simpa using ht, by simpa using ht'⟩, fun hc => ?_⟩
        simp [himg] at hc
    · have himgf : strIn "image" kv.1 = false := by
        simpa using himg
      have hnone : findVal kv.1 imgs = none := by
        cases hfi : findVal kv.1 imgs with
        | none => rfl
        | some w =>
          exfalso
          have hw := findVal_mem hfi
          obtain ⟨a, ha, hab⟩ := forall₂_mem_right hf' hw
          have hsa : strIn "image" a.1 = true := by
            have := List.mem_filter.mp ha
            exact this.2
          have hba : kv.1 = a.1 := by simpa using hab.1
          rw [← hba, himgf] at hsa
          cases hsa
      simp only [hnone]
      refine ⟨by simp, fun hc => ?_, fun _ => by simp⟩
      simp [himgf] at hc

theorem optMapList_isSome {α β : Type} {f : α → Option β} {l : List α}
    (h : ∀ a ∈ l, (f a).isSome) : ∃ l', optMapList f l = some l' := by
  induction l with
  | nil => exact ⟨[], rfl⟩
  | cons a as ih =>
    obtain ⟨b, hb⟩ := Option.isSome_iff_exists.mp (h a (List.mem_cons_self a as))
    obtain ⟨bs, hbs⟩ := ih (fun x hx => h x (List.mem_cons_of_mem a hx))
    exact ⟨b :: bs, by simp [optMapList, hb, hbs]⟩

theorem forall₂_keys_eq {α β : Type} {R : (String × α) → (String × β) → Prop}
    {l : List (String × α)} {l' : List (String × β)}
    (h : List.Forall₂ (fun kv kv' => kv'.1 = kv.1 ∧ R kv kv') l l') :
    l'.map Prod.fst = l.map Prod.fst := by
  induction h with
  | nil => rfl
  | cons hr _ ih => simp [ih, hr.1]

theorem forall₂_eq_self {α : Type} {R : α → α → Prop} {l l' : List α}
    (h : List.Forall₂ R l l') (hfun : ∀ a ∈ l, ∀ b, R a b → b = a) : l' = l := by
  induction h with
  | nil => rfl
  | cons hr htail ih =>
    rename_i a b as bs
    rw [hfun a (List.mem_cons_self a as) b hr]
    rw [ih (fun x hx c hc => hfun x (List.mem_cons_of_mem a hx) c hc)]

theorem forall₂_functional_eq {α β : Type} {R : α → β → Prop} {l : List α}
    {l₁ l₂ : List β} (h₁ : List.Forall₂ R l l₁) (h₂ : List.Forall₂ R l l₂)
    (hfun : ∀ a ∈ l, ∀ b₁ b₂, R a b₁ → R a b₂ → b₁ = b₂) : l₁ = l₂ := by
  induction h₁ generalizing l₂ with
  | nil => cases h₂; rfl
  | cons hr htail ih =>
    rename_i a b as bs
    cases h₂ with
    | cons hr₂ htail₂ =>
      rw [hfun a (List.mem_cons_self a as) _ _ hr hr₂]
      rw [ih htail₂ (fun x hx c₁ c₂ hc₁ hc₂ => hfun x (List.mem_cons_of_mem a hx) c₁ c₂ hc₁ hc₂)]

theorem forall₂_comp {α β γ : Type} {R : α → β → Prop} {S : β → γ → Prop}
    {l : List α} {l' : List β} {l'' : List γ}
    (h : List.Forall₂ R l l') (h' : List.Forall₂ S l' l'') :
    List.Forall₂ (fun a c => ∃ b, R a b ∧ S b c) l l'' := by
  induction h generalizing l'' with
  | nil => cases h'; constructor
  | cons hr htail ih =>
    cases h' with
    | cons hs htail' => exact List.Forall₂.cons ⟨_, hr, hs⟩ (ih htail')

theorem findVal_map_update_self {α : Type} {l : List (String × α)} {k0 : String} {w : α} :
    findVal k0 (l.map (fun kv => if kv.1 = k0 then (kv.1, w) else kv)) =
      (findVal k0 l).map (fun _ => w) := by
  induction l with
  | nil => rfl
  | cons kv rest ih =>
    by_cases hk : kv.1 = k0
    · simp [findVal, hk]
    · have hne : (k0 == kv.1) = false := by
        simp only [beq_eq_false_iff_ne, ne_eq]
        exact fun hc => hk hc.symm
      simp [findVal, hk, hne, ih]

theorem findVal_map_update_other {α : Type} {l : List (String × α)} {k k0 : String}
    {w : α} (hk : k ≠ k0) :
    findVal k (l.map (fun kv => if kv.1 = k0 then (kv.1, w) else kv)) =
      findVal k l := by
  induction l with
  | nil => rfl
  | cons kv rest ih =>
    by_cases hkv : kv.1 = k0
    · have hne : (k == kv.1) = false := by
        rw [hkv]
        simp only [beq_eq_false_iff_ne, ne_eq]
        exact hk
      simp [findVal, hkv, hne, hk, ih]
    · by_cases hkk : k = kv.1
      · simp [findVal, hkv, hkk]
      · have hne : (k == kv.1) = false := by
          simp only [beq_eq_false_iff_ne, ne_eq]
          exact hkk
        simp [findVal, hkv, hne, ih]

theorem map_update_idem {α : Type} {l : List (String × α)} {k0 : String} {w : α} :
    (l.map (fun kv => if kv.1 = k0 then (kv.1, w) else kv)).map
      (fun kv => if kv.1 = k0 then (kv.1, w) else kv) =
    l.map (fun kv => if kv.1 = k0 then (kv.1, w) else kv) := by
  rw [List.map_map]
  apply List.map_congr_left
  intro kv _
  by_cases hk : kv.1 = k0
  · simp [Function.comp, hk]
  · simp [Function.comp, hk]

theorem remove_images_some {tasks : Tasks}
    (h : ∀ kv ∈ tasks, strIn "image" kv.1 = true → ∃ a : Tensor, kv.2 = PTree.leaf a) :
    ∃ t', remove_images tasks = some t' := by
  have hs : ∀ kv ∈ tasks.filter (fun kv => strIn "image" kv.1),
      ((treeZerosLike kv.2).map (fun z => (kv.1, z))).isSome = true := by
    intro kv hkv
    obtain ⟨hmem, himg⟩ := List.mem_filter.mp hkv
    obtain ⟨a, ha⟩ := h kv hmem himg
    rw [ha]
    simp [treeZerosLike]
  obtain ⟨imgs, himgs⟩ := optMapList_isSome hs
  refine ⟨dictCopy tasks imgs, ?_⟩
  rw [remove_images, himgs]

theorem map_update_keys {α : Type} {l : List (String × α)} {k0 : String} {w : α} :
    (l.map (fun kv => if kv.1 = k0 then (kv.1, w) else kv)).map Prod.fst =
      l.map Prod.fst := by
  rw [List.map_map]
  apply List.map_congr_left
  intro kv _
  by_cases hk : kv.1 = k0 <;> simp [Function.comp, hk]

/-- Claim C5: `remove_images` returns a dictionary with the same keys in which
every entry whose key contains the substring "image" is replaced by an
all-zeros array of the same shape, and every other entry is unchanged.  (The
dtype is not part of the model; `zerosLike` preserves the element type by
construction.)  Stated for any task dictionary with distinct keys on which the
call returns (in `jax` it raises when an image entry is not an array). -/
theorem C5_remove_images_zero_fills (tasks t' : Tasks)
    (hnd : (tasks.map Prod.fst).Nodup) (h : remove_images tasks = some t') :
    List.Forall₂ (fun kv kv' => kv'.1 = kv.1 ∧
      (strIn "image" kv.1 = true →
        ∃ a : Tensor, kv.2 = PTree.leaf a ∧ kv'.2 = PTree.leaf a.zerosLike ∧
          a.zerosLike.shape = a.shape ∧ a.zerosLike.allZero = true) ∧
      (strIn "image" kv.1 = false → kv' = kv)) tasks t' := by
  refine (remove_images_forall₂ hnd h).imp ?_
  intro a b hab
  refine ⟨hab.1, fun himg => ?_, hab.2.2⟩
  obtain ⟨t, ht, ht'⟩ := hab.2.1 himg
  exact ⟨t, ht, ht', Tensor.zerosLike_shape t, Tensor.zerosLike_allZero t⟩

/-- Witness for C5 on a concrete task dictionary. -/
theorem C5_remove_images_zero_fills_witness :
    List.Forall₂ (fun kv kv' => kv'.1 = kv.1 ∧
      (strIn "image" kv.1 = true →
        ∃ a : Tensor, kv.2 = PTree.leaf a ∧ kv'.2 = PTree.leaf a.zerosLike ∧
          a.zerosLike.shape = a.shape ∧ a.zerosLike.allZero = true) ∧
      (strIn "image" kv.1 = false → kv' = kv))
      [("image_primary", PTree.leaf (Tensor.dim [Tensor.scalar 3, Tensor.scalar 4])),
       ("language_instruction", PTree.node [("tokens", PTree.leaf (Tensor.dim [Tensor.scalar 9]))])]
      [("image_primary", PTree.leaf (Tensor.dim [Tensor.scalar 0, Tensor.scalar 0])),
       ("language_instruction", PTree.node [("tokens", PTree.leaf (Tensor.dim [Tensor.scalar 9]))])] :=
  C5_remove_images_zero_fills _ _ (by decide) rfl

/-- Claim C8: when the task dictionary has no `"language_instruction"` key,
`remove_text` returns it unchanged; when it does, every other entry is
unchanged and the replacement language entry has the structure, keys and
leafwise shapes of the original (the zero encoding broadcast to it).  The
shape statement carries the positivity hypothesis required by the tensor
model. -/
theorem C8_remove_text_frame (tasks : Tasks) (z : PTree) :
    (findVal "language_instruction" tasks = none → remove_text tasks z = some tasks) ∧
    (∀ li t', findVal "language_instruction" tasks = some li →
      remove_text tasks z = some t' →
      ∃ nl, PTree.zipBroadcast li z = some nl ∧
        t' = tasks.map (fun kv =>
          if kv.1 = "language_instruction" then (kv.1, nl) else kv) ∧
        (li.allLeaves Tensor.posShape = true → PTree.sameShapes li nl = true)) := by
  constructor
  · exact remove_text_no_lang
  · intro li t' hli h
    rw [remove_text_eq hli] at h
    cases hzb : PTree.zipBroadcast li z with
    | none => rw [hzb] at h; exact absurd h (by simp)
    | some nl =>
      rw [hzb] at h
      simp only [Option.map_some', Option.some.injEq] at h
      subst h
      exact ⟨nl, rfl, rfl, fun hp => PTree.zipBroadcast_sameShapes li z nl hzb hp⟩

/-- Witness for C8: both branches at concrete inputs. -/
theorem C8_remove_text_frame_witness :
    (remove_text [("image_primary", PTree.leaf (Tensor.scalar 3))]
      (PTree.leaf (Tensor.scalar 5)) =
      some [("image_primary", PTree.leaf (Tensor.scalar 3))]) ∧
    ∃ nl, PTree.zipBroadcast (PTree.leaf (Tensor.dim [Tensor.scalar 7, Tensor.scalar 8]))
        (PTree.leaf (Tensor.scalar 5)) = some nl ∧
      [("language_instruction", PTree.leaf (Tensor.dim [Tensor.scalar 5, Tensor.scalar 5])),
       ("image_primary", PTree.leaf (Tensor.scalar 3))] =
        [("language_instruction", PTree.leaf (Tensor.dim [Tensor.scalar 7, Tensor.scalar 8])),
         ("image_primary", PTree.leaf (Tensor.scalar 3))].map (fun kv =>
          if kv.1 = "language_instruction" then (kv.1, nl) else kv) ∧
      (PTree.allLeaves Tensor.posShape
          (PTree.leaf (Tensor.dim [Tensor.scalar 7, Tensor.scalar 8])) = true →
        PTree.sameShapes (PTree.leaf (Tensor.dim [Tensor.scalar 7, Tensor.scalar 8])) nl = true) :=
  ⟨(C8_remove_text_frame [("image_primary", PTree.leaf (Tensor.scalar 3))]
      (PTree.leaf (Tensor.scalar 5))).1 rfl,
   (C8_remove_text_frame
      [("language_instruction", PTree.leaf (Tensor.dim [Tensor.scalar 7, Tensor.scalar 8])),
       ("image_primary", PTree.leaf (Tensor.scalar 3))]
      (PTree.leaf (Tensor.scalar 5))).2 _ _ rfl rfl⟩

/-- Claim C3 counterexample: `remove_text` does not zero-fill the language
entry.  With the empty-string encoding leaf `5`, the replacement leaf is the
broadcast `[5]`, which has the original's shape but is not all zeros. -/
theorem C3_counterexample :
    remove_text [("language_instruction", PTree.leaf (Tensor.dim [Tensor.scalar 7]))]
        (PTree.leaf (Tensor.scalar 5)) =
      some [("language_instruction", PTree.leaf (Tensor.dim [Tensor.scalar 5]))] ∧
    Tensor.allZero (Tensor.dim [Tensor.scalar 5]) = false ∧
    Tensor.shape (Tensor.dim [Tensor.scalar 5]) =
      Tensor.shape (Tensor.dim [Tensor.scalar 7]) :=
  ⟨rfl, rfl, rfl⟩

theorem Tensor.allZeroList_replicate_rev {n : Nat} {v : Tensor}
    (h : Tensor.allZeroList (List.replicate n v) = true) (hn : 0 < n) :
    v.allZero = true := by
  cases n with
  | zero => exact absurd hn (by omega)
  | succ m =>
    rw [List.replicate_succ] at h
    simp only [Tensor.allZeroList, Bool.and_eq_true] at h
    exact h.1

theorem Tensor.broadcastTo_allZero_rev {s : List Nat} :
    ∀ {t u : Tensor}, t.broadcastTo s = some u → posDims s = true →
      u.allZero = true → t.allZero = true := by
  induction s with
  | nil =>
    intro t u h _ hz
    cases t with
    | scalar q =>
      simp only [Tensor.broadcastTo, Option.some.injEq] at h
      subst h
      exact hz
    | dim ts => simp [Tensor.broadcastTo] at h
  | cons n rest ih =>
    intro t u h hp hz
    obtain ⟨hn, hrest⟩ := posDims_cons hp
    rw [Tensor.broadcastTo.eq_def] at h
    cases t with
    | scalar q =>
      simp only [Tensor.ndim] at h
      split at h
      · exact absurd h (by simp)
      · split at h
        · simp only [Option.map_eq_some'] at h
          obtain ⟨v, hv, rfl⟩ := h
          simp only [Tensor.allZero] at hz
          exact ih hv hrest (Tensor.allZeroList_replicate_rev hz hn)
        · exact absurd h (by simp)
    | dim ts =>
      rcases ts with _ | ⟨u1, ts1⟩
      · simp only [Tensor.ndim] at h
        split at h
        · split at h
          · simp only [optMapList, Option.map_some', Option.some.injEq] at h
            subst h
            rfl
          · exact absurd h (by simp)
        · split at h
          · simp only [Option.map_eq_some'] at h
            obtain ⟨v, hv, rfl⟩ := h
            simp only [Tensor.allZero] at hz
            exact ih hv hrest (Tensor.allZeroList_replicate_rev hz hn)
          · exact absurd h (by simp)
      · rcases ts1 with _ | ⟨u2, ts2⟩
        · simp only [Tensor.ndim] at h
          split at h
          · simp only [Option.map_eq_some'] at h
            obtain ⟨v, hv, rfl⟩ := h
            simp only [Tensor.allZero] at hz
            have hu1 := ih hv hrest (Tensor.allZeroList_replicate_rev hz hn)
            simp [Tensor.allZero, Tensor.allZeroList, hu1]
          · split at h
            · simp only [Option.map_eq_some'] at h
              obtain ⟨v, hv, rfl⟩ := h
              simp only [Tensor.allZero] at hz
              exact ih hv hrest (Tensor.allZeroList_replicate_rev hz hn)
            · exact absurd h (by simp)
        · simp only [Tensor.ndim] at h
          split at h
          · split at h
            · simp only [Option.map_eq_some'] at h
              obtain ⟨us, hus, rfl⟩ := h
              have hf := optMapList_forall₂ hus
              simp only [Tensor.allZero] at hz ⊢
              rw [Tensor.allZeroList_iff] at hz ⊢
              intro a ha
              obtain ⟨b, hb, hab⟩ := forall₂_mem_left hf ha
              exact ih hab hrest (hz b hb)
            · exact absurd h (by simp)
          · split at h
            · simp only [Option.map_eq_some'] at h
              obtain ⟨v, hv, rfl⟩ := h
              simp only [Tensor.allZero] at hz
              exact ih hv hrest (Tensor.allZeroList_replicate_rev hz hn)
            · exact absurd h (by simp)

mutual
theorem PTree.zipBroadcast_allZero_rev :
    ∀ (x z y : PTree), PTree.zipBroadcast x z = some y →
      x.allLeaves Tensor.posShape = true →
      y.allLeaves Tensor.allZero = true → z.allLeaves Tensor.allZero = true
  | .leaf a, .leaf e, y, h, hp, hz => by
    simp only [PTree.zipBroadcast, Option.map_eq_some'] at h
    obtain ⟨v, hv, rfl⟩ := h
    simp only [PTree.allLeaves] at hp hz ⊢
    have he := Tensor.broadcastTo_allZero_rev hv
      (by simpa [Tensor.posShape] using hp) hz
    simpa [Tensor.expandDims0, Tensor.allZero, Tensor.allZeroList] using he
  | .leaf _, .node _, _, h, _, _ => by simp [PTree.zipBroadcast] at h
  | .node _, .leaf _, _, h, _, _ => by simp [PTree.zipBroadcast] at h
  | .node cs, .node ds, y, h, hp, hz => by
    simp only [PTree.zipBroadcast, Option.map_eq_some'] at h
    obtain ⟨l, hl, rfl⟩ := h
    simp only [PTree.allLeaves] at hp hz ⊢
    exact PTree.zipBroadcastChildren_allZero_rev cs ds l hl hp hz
theorem PTree.zipBroadcastChildren_allZero_rev :
    ∀ (cs ds l : List (String × PTree)), PTree.zipBroadcastChildren cs ds = some l →
      PTree.allLeavesChildren Tensor.posShape cs = true →
      PTree.allLeavesChildren Tensor.allZero l = true →
      PTree.allLeavesChildren Tensor.allZero ds = true
  | [], [], l, h, _, _ => by
    simp only [PTree.zipBroadcastChildren, Option.some.injEq] at h
    subst h
    rfl
  | [], _ :: _, _, h, _, _ => by simp [PTree.zipBroadcastChildren] at h
  | _ :: _, [], _, h, _, _ => by simp [PTree.zipBroadcastChildren] at h
  | kv :: cs, kw :: ds, l, h, hp, hz => by
    simp only [PTree.allLeavesChildren, Bool.and_eq_true] at hp
    simp only [PTree.zipBroadcastChildren] at h
    split at h
    · cases hzb : PTree.zipBroadcast kv.2 kw.2 with
      | none => rw [hzb] at h; exact absurd h (by simp)
      | some hd =>
        rw [hzb] at h
        cases hzc : PTree.zipBroadcastChildren cs ds with
        | none => rw [hzc] at h; exact absurd h (by simp)
        | some tl =>
          rw [hzc] at h
          simp only [Option.some.injEq] at h
          subst h
          simp only [PTree.allLeavesChildren, Bool.and_eq_true] at hz ⊢
          exact ⟨PTree.zipBroadcast_allZero_rev kv.2 kw.2 hd hzb hp.1 hz.1,
            PTree.zipBroadcastChildren_allZero_rev cs ds tl hzc hp.2 hz.2⟩
    · exact absurd h (by simp)
end

/-- Claim C3 as amended: `remove_text` replaces the language entry with the
`zero_text_encoding` (the encoding of the empty string) broadcast leafwise to
the original leaves' shapes; the replacement is an all-zeros tree exactly when
the encoding itself is all zeros, and leafwise shapes are preserved.  The
"exactly when" converse and the shape preservation carry the positive-dims
hypothesis the tensor model needs: a leaf with an empty axis would contain no
copy of the encoding. -/
theorem C3_remove_text_broadcasts_encoding (tasks : Tasks) (z li : PTree) (t' : Tasks)
    (hli : findVal "language_instruction" tasks = some li)
    (h : remove_text tasks z = some t') :
    ∃ nl, PTree.zipBroadcast li z = some nl ∧
      findVal "language_instruction" t' = some nl ∧
      (z.allLeaves Tensor.allZero = true → nl.allLeaves Tensor.allZero = true) ∧
      (li.allLeaves Tensor.posShape = true →
        (nl.allLeaves Tensor.allZero = true ↔ z.allLeaves Tensor.allZero = true) ∧
        PTree.sameShapes li nl = true) := by
  rw [remove_text_eq hli] at h
  cases hzb : PTree.zipBroadcast li z with
  | none => rw [hzb] at h; exact absurd h (by simp)
  | some nl =>
    rw [hzb] at h
    simp only [Option.map_some', Option.some.injEq] at h
    subst h
    refine ⟨nl, rfl, ?_, ?_, ?_⟩
    · rw [findVal_map_update_self, hli]
      rfl
    · exact fun hz => PTree.zipBroadcast_allZero li z nl hzb hz
    · intro hp
      refine ⟨⟨?_, ?_⟩, PTree.zipBroadcast_sameShapes li z nl hzb hp⟩
      · exact fun hz => PTree.zipBroadcast_allZero_rev li z nl hzb hp hz
      · exact fun hz => PTree.zipBroadcast_allZero li z nl hzb hz

/-- Witness for the amended C3 on a concrete input with an all-zero
encoding. -/
theorem C3_remove_text_broadcasts_encoding_witness :
    ∃ nl, PTree.zipBroadcast (PTree.leaf (Tensor.dim [Tensor.scalar 7, Tensor.scalar 8]))
        (PTree.leaf (Tensor.scalar 0)) = some nl ∧
      findVal "language_instruction"
        [("language_instruction", PTree.leaf (Tensor.dim [Tensor.scalar 0, Tensor.scalar 0]))] =
        some nl ∧
      (PTree.allLeaves Tensor.allZero (PTree.leaf (Tensor.scalar 0)) = true →
        nl.allLeaves Tensor.allZero = true) ∧
      (PTree.allLeaves Tensor.posShape
          (PTree.leaf (Tensor.dim [Tensor.scalar 7, Tensor.scalar 8])) = true →
        (nl.allLeaves Tensor.allZero = true ↔
          PTree.allLeaves Tensor.allZero (PTree.leaf (Tensor.scalar 0)) = true) ∧
        PTree.sameShapes (PTree.leaf (Tensor.dim [Tensor.scalar 7, Tensor.scalar 8])) nl = true) :=
  C3_remove_text_broadcasts_encoding
    [("language_instruction", PTree.leaf (Tensor.dim [Tensor.scalar 7, Tensor.scalar 8]))]
    (PTree.leaf (Tensor.scalar 0)) (PTree.leaf (Tensor.dim [Tensor.scalar 7, Tensor.scalar 8]))
    [("language_instruction", PTree.leaf (Tensor.dim [Tensor.scalar 0, Tensor.scalar 0]))]
    rfl rfl

/-- Claim C9: the two modality ablations are idempotent and commute, so the
"unconditioned" ablation (`remove_text(remove_images(tasks), zero_text)`) is
order-independent.  Stated on dictionaries with distinct keys whose language
leaves have positive dims (the tensor model cannot express the trailing shape
of an empty axis), and commutation as equality of the two compositions
whenever each single ablation returns. -/
theorem C9_ablations_idem_commute (tasks : Tasks) (z : PTree)
    (hnd : (tasks.map Prod.fst).Nodup)
    (hpos : ∀ L, findVal "language_instruction" tasks = some L →
      L.allLeaves Tensor.posShape = true) :
    (∀ ti, remove_images tasks = some ti → remove_images ti = some ti) ∧
    (∀ tt, remove_text tasks z = some tt → remove_text tt z = some tt) ∧
    (∀ ti tt, remove_images tasks = some ti → remove_text tasks z = some tt →
      remove_text ti z = remove_images tt) := by
  refine ⟨?_, ?_, ?_⟩
  · -- remove_images is idempotent
    intro ti hti
    have hF := remove_images_forall₂ hnd hti
    have hkeys : ti.map Prod.fst = tasks.map Prod.fst := forall₂_keys_eq hF
    have hnd' : (ti.map Prod.fst).Nodup := hkeys ▸ hnd
    obtain ⟨tii, htii⟩ : ∃ t'', remove_images ti = some t'' := by
      apply remove_images_some
      intro kv' hkv' himg
      obtain ⟨kv, hkv, hrel⟩ := forall₂_mem_right hF hkv'
      rw [hrel.1] at himg
      obtain ⟨a, _, ha'⟩ := hrel.2.1 himg
      exact ⟨a.zerosLike, ha'⟩
    have hF2 := remove_images_forall₂ hnd' htii
    have heq : tii = ti := by
      apply forall₂_eq_self hF2
      intro kv' hkv' b hb
      obtain ⟨kv, hkv, hrel⟩ := forall₂_mem_right hF hkv'
      by_cases himg : strIn "image" kv'.1 = true
      · obtain ⟨a', ha', hb'⟩ := hb.2.1 himg
        have himgk : strIn "image" kv.1 = true := hrel.1 ▸ himg
        obtain ⟨a, _, ha2⟩ := hrel.2.1 himgk
        rw [ha2] at ha'
        injection ha' with ha'
        rw [Prod.ext_iff]
        refine ⟨hb.1, ?_⟩
        rw [hb', ← ha', Tensor.zerosLike_idem, ha2, ha']
      · exact hb.2.2 (by simpa using himg)
    rw [heq] at htii
    exact htii
  · -- remove_text is idempotent
    intro tt htt
    cases hli : findVal "language_instruction" tasks with
    | none =>
      rw [remove_text_no_lang hli] at htt
      injection htt with htt
      subst htt
      exact remove_text_no_lang hli
    | some L =>
      have hposL := hpos L hli
      rw [remove_text_eq hli] at htt
      cases hzb : PTree.zipBroadcast L z with
      | none => rw [hzb] at htt; exact absurd htt (by simp)
      | some nl =>
        rw [hzb] at htt
        simp only [Option.map_some', Option.some.injEq] at htt
        subst htt
        have hfv : findVal "language_instruction"
            (tasks.map (fun kv =>
              if kv.1 = "language_instruction" then (kv.1, nl) else kv)) = some nl := by
          rw [findVal_map_update_self, hli]
          rfl
        rw [remove_text_eq hfv, PTree.zipBroadcast_idem L z nl hzb hposL]
        simp only [Option.map_some', Option.some.injEq]
        exact map_update_idem
  · -- the two ablations commute
    intro ti tt hti htt
    have hF := remove_images_forall₂ hnd hti
    cases hli : findVal "language_instruction" tasks with
    | none =>
      rw [remove_text_no_lang hli] at htt
      injection htt with htt
      subst htt
      have hno : findVal "language_instruction" ti = none := by
        rcases findVal_forall₂ hF "language_instruction" with ⟨_, h2⟩ | ⟨v, v', hv, _, _⟩
        · exact h2
        · rw [hli] at hv; cases hv
      rw [remove_text_no_lang hno, hti]
    | some L =>
      rw [remove_text_eq hli] at htt
      cases hzb : PTree.zipBroadcast L z with
      | none => rw [hzb] at htt; exact absurd htt (by simp)
      | some nl =>
        rw [hzb] at htt
        simp only [Option.map_some', Option.some.injEq] at htt
        subst htt
        have hLti : findVal "language_instruction" ti = some L := by
          rcases findVal_forall₂ hF "language_instruction" with ⟨h1, _⟩ | ⟨v, v', hv, hv', hrel⟩
          · rw [hli] at h1; cases h1
          · rw [hli] at hv
            injection hv with hv
            subst hv
            have hpair := hrel.2 rfl
            rw [hv']
            exact congrArg (fun p => some (Prod.snd p)) hpair
        rw [remove_text_eq hLti, hzb]
        simp only [Option.map_some']
        -- the right-hand side: remove_images of the text-ablated dictionary
        have hndtt : ((tasks.map (fun kv =>
            if kv.1 = "language_instruction" then (kv.1, nl) else kv)).map Prod.fst).Nodup := by
          rw [map_update_keys]
          exact hnd
        obtain ⟨t₂, ht₂⟩ : ∃ t₂, remove_images (tasks.map (fun kv =>
            if kv.1 = "language_instruction" then (kv.1, nl) else kv)) = some t₂ := by
          apply remove_images_some
          intro kv' hkv' himg
          obtain ⟨kv, hkv, hupd⟩ := List.mem_map.mp hkv'
          by_cases hk : kv.1 = "language_instruction"
          · exfalso
            rw [if_pos hk] at hupd
            rw [← hupd] at himg
            simp only [hk] at himg
            exact absurd himg (by decide)
          · rw [if_neg hk] at hupd
            subst hupd
            obtain ⟨b, _, hrel⟩ := forall₂_mem_left hF hkv
            obtain ⟨a, ha, _⟩ := hrel.2.1 himg
            exact ⟨a, ha⟩
        rw [ht₂]
        have hF2 := remove_images_forall₂ hndtt ht₂
        -- both sides are the unique list combined-related to `tasks`
        have hcombL : List.Forall₂ (fun kv kv' : String × PTree => kv'.1 = kv.1 ∧
            (kv.1 = "language_instruction" → kv' = (kv.1, nl)) ∧
            (kv.1 ≠ "language_instruction" → strIn "image" kv.1 = true →
              ∃ a : Tensor, kv.2 = PTree.leaf a ∧ kv'.2 = PTree.leaf a.zerosLike) ∧
            (kv.1 ≠ "language_instruction" → strIn "image" kv.1 = false → kv' = kv))
            tasks (ti.map (fun kv =>
              if kv.1 = "language_instruction" then (kv.1, nl) else kv)) := by
          rw [List.forall₂_map_right_iff]
          refine hF.imp ?_
          intro a c hr
          by_cases ha : a.1 = "language_instruction"
          · have himgf : strIn "image" a.1 = false := by rw [ha]; decide
            have hca : c = a := hr.2.2 himgf
            subst hca
            rw [if_pos (hr.1.trans ha)]
            refine ⟨hr.1, fun _ => ?_, fun hne => absurd ha hne, fun hne _ => absurd ha hne⟩
            rw [Prod.ext_iff]
            exact ⟨hr.1, rfl⟩
          · have hca : c.1 ≠ "language_instruction" := fun hc => ha (hr.1 ▸ hc)
            rw [if_neg hca]
            exact ⟨hr.1, fun hc => absurd hc ha, fun _ => hr.2.1, fun _ => hr.2.2⟩
        have hcombR : List.Forall₂ (fun kv kv' : String × PTree => kv'.1 = kv.1 ∧
            (kv.1 = "language_instruction" → kv' = (kv.1, nl)) ∧
            (kv.1 ≠ "language_instruction" → strIn "image" kv.1 = true →
              ∃ a : Tensor, kv.2 = PTree.leaf a ∧ kv'.2 = PTree.leaf a.zerosLike) ∧
            (kv.1 ≠ "language_instruction" → strIn "image" kv.1 = false → kv' = kv))
            tasks t₂ := by
          have hupd : List.Forall₂ (fun a b : String × PTree =>
              b = if a.1 = "language_instruction" then (a.1, nl) else a)
              tasks (tasks.map (fun kv =>
                if kv.1 = "language_instruction" then (kv.1, nl) else kv)) := by
            rw [List.forall₂_map_right_iff]
            exact List.forall₂_same.mpr (fun x _ => rfl)
          refine (forall₂_comp hupd hF2).imp ?_
          intro a c hr
          obtain ⟨b, hb, hrb⟩ := hr
          by_cases ha : a.1 = "language_instruction"
          · rw [if_pos ha] at hb
            subst hb
            have himgf : strIn "image" a.1 = false := by rw [ha]; decide
            have : c = (a.1, nl) := hrb.2.2 (by simpa using himgf)
            subst this
            refine ⟨rfl, fun _ => rfl, fun hne => absurd ha hne, fun hne _ => absurd ha hne⟩
          · rw [if_neg ha] at hb
            subst hb
            exact ⟨hrb.1, fun hc => absurd hc ha, fun _ => hrb.2.1, fun _ => hrb.2.2⟩
        have hfun : ∀ a ∈ tasks, ∀ b₁ b₂ : String × PTree,
            (b₁.1 = a.1 ∧
              (a.1 = "language_instruction" → b₁ = (a.1, nl)) ∧
              (a.1 ≠ "language_instruction" → strIn "image" a.1 = true →
                ∃ t : Tensor, a.2 = PTree.leaf t ∧ b₁.2 = PTree.leaf t.zerosLike) ∧
              (a.1 ≠ "language_instruction" → strIn "image" a.1 = false → b₁ = a)) →
            (b₂.1 = a.1 ∧
              (a.1 = "language_instruction" → b₂ = (a.1, nl)) ∧
              (a.1 ≠ "language_instruction" → strIn "image" a.1 = true →
                ∃ t : Tensor, a.2 = PTree.leaf t ∧ b₂.2 = PTree.leaf t.zerosLike) ∧
              (a.1 ≠ "language_instruction" → strIn "image" a.1 = false → b₂ = a)) →
            b₁ = b₂ := by
          intro a _ b₁ b₂ h₁ h₂
          by_cases ha : a.1 = "language_instruction"
          · rw [h₁.2.1 ha, h₂.2.1 ha]
          · by_cases himg : strIn "image" a.1 = true
            · obtain ⟨t₁, ht₁, hb₁⟩ := h₁.2.2.1 ha himg
              obtain ⟨t₂', ht₂', hb₂⟩ := h₂.2.2.1 ha himg
              rw [ht₁] at ht₂'
              injection ht₂' with ht₂'
              rw [Prod.ext_iff]
              refine ⟨h₁.1.trans h₂.1.symm, ?_⟩
              rw [hb₁, hb₂, ht₂']
            · rw [h₁.2.2.2 ha (by simpa using himg), h₂.2.2.2 ha (by simpa using himg)]
        rw [forall₂_functional_eq hcombL hcombR hfun]

/-- Witness for C9 on a concrete task dictionary and encoding. -/
theorem C9_ablations_idem_commute_witness :
    (remove_images [("image_primary", PTree.leaf (Tensor.dim [Tensor.scalar 0])),
        ("language_instruction", PTree.leaf (Tensor.dim [Tensor.scalar 7]))] =
      some [("image_primary", PTree.leaf (Tensor.dim [Tensor.scalar 0])),
        ("language_instruction", PTree.leaf (Tensor.dim [Tensor.scalar 7]))]) ∧
    (remove_text [("image_primary", PTree.leaf (Tensor.dim [Tensor.scalar 3])),
        ("language_instruction", PTree.leaf (Tensor.dim [Tensor.scalar 5]))]
        (PTree.leaf (Tensor.scalar 5)) =
      some [("image_primary", PTree.leaf (Tensor.dim [Tensor.scalar 3])),
        ("language_instruction", PTree.leaf (Tensor.dim [Tensor.scalar 5]))]) ∧
    remove_text [("image_primary", PTree.leaf (Tensor.dim [Tensor.scalar 0])),
        ("language_instruction", PTree.leaf (Tensor.dim [Tensor.scalar 7]))]
        (PTree.leaf (Tensor.scalar 5)) =
      remove_images [("image_primary", PTree.leaf (Tensor.dim [Tensor.scalar 3])),
        ("language_instruction", PTree.leaf (Tensor.dim [Tensor.scalar 5]))] := by
  have h := C9_ablations_idem_commute
    [("image_primary", PTree.leaf (Tensor.dim [Tensor.scalar 3])),
     ("language_instruction", PTree.leaf (Tensor.dim [Tensor.scalar 7]))]
    (PTree.leaf (Tensor.scalar 5))
    (by decide)
    (by
      intro L hL
      have h2 : some (PTree.leaf (Tensor.dim [Tensor.scalar 7])) = some L := by
        rw [← hL]
        rfl
      cases Option.some.inj h2
      rfl)
  exact ⟨h.1 _ rfl, h.2.1 _ rfl, h.2.2 _ _ rfl rfl⟩

/-- Claim C2: `get_policy_sampled_actions` applies the model to the task
dictionary ablated according to `policy_mode`: `"text_conditioned"` removes
the image entries, `"image_conditioned"` removes the language entry,
`"unconditioned"` removes both, and any other mode (including the default
`None`) leaves the dictionary unchanged; the (possibly ablated) dictionary is
exactly what the model apply function receives. -/
theorem C2_policy_mode_dispatch {Obs : Type} (applyFn : Obs → Tasks → Nat → Tensor)
    (observations : Obs) (tasks : Tasks) (zero_text : PTree)
    (samples_per_state : Nat) :
    ablate_tasks tasks zero_text (some "text_conditioned") = remove_images tasks ∧
    ablate_tasks tasks zero_text (some "image_conditioned") =
      remove_text tasks zero_text ∧
    ablate_tasks tasks zero_text (some "unconditioned") =
      (remove_images tasks).bind (fun t => remove_text t zero_text) ∧
    (∀ pm, pm ≠ some "text_conditioned" → pm ≠ some "image_conditioned" →
      pm ≠ some "unconditioned" → ablate_tasks tasks zero_text pm = some tasks) ∧
    (∀ pm, get_policy_sampled_actions applyFn observations tasks zero_text
        samples_per_state pm =
      (ablate_tasks tasks zero_text pm).bind
        (fun t => (applyFn observations t samples_per_state).moveaxis01)) := by
  refine ⟨rfl, rfl, ?_, ?_, ?_⟩
  · cases h : remove_images tasks <;> simp [ablate_tasks, h]
  · intro pm h1 h2 h3
    rw [ablate_tasks.eq_def]
    split
    · exact absurd rfl h1
    · exact absurd rfl h2
    · exact absurd rfl h3
    · rfl
  · intro pm
    cases h : ablate_tasks tasks zero_text pm <;>
      simp [get_policy_sampled_actions, h]

/-- Witness for C2 at a concrete dictionary and an unrecognised mode. -/
theorem C2_policy_mode_dispatch_witness :
    ablate_tasks [("image_primary", PTree.leaf (Tensor.scalar 3))]
        (PTree.leaf (Tensor.scalar 5)) (some "base") =
      some [("image_primary", PTree.leaf (Tensor.scalar 3))] :=
  (C2_policy_mode_dispatch (fun _ _ _ => Tensor.scalar 0) () _ _ 1).2.2.2.1
    (some "base") (by decide) (by decide) (by decide)

theorem getD_map_lt {α β : Type} {l : List α} (f : α → β) {i : Nat}
    (h : i < l.length) (d : β) :
    (l.map f).getD i d = f (l.get ⟨i, h⟩) := by
  simp [List.getD_eq_getElem?_getD, List.getElem?_map, List.getElem?_eq_getElem, h]

theorem getD_lt {α : Type} {l : List α} {i : Nat} (h : i < l.length) (d : α) :
    l.getD i d = l.get ⟨i, h⟩ := by
  simp [List.getD_eq_getElem?_getD, List.getElem?_eq_getElem, h]

theorem optMapList_getRow_map_dim (m : List (List Tensor)) :
    optMapList Tensor.getRow (m.map Tensor.dim) = some m := by
  induction m with
  | nil => rfl
  | cons r rs ih => simp [optMapList, Tensor.getRow, ih]

theorem matTranspose_length {m : List (List Tensor)} {b : Nat} :
    (matTranspose m b).length = b := by
  simp [matTranspose]

theorem matTranspose_row_length {m : List (List Tensor)} {b : Nat} :
    ∀ r ∈ matTranspose m b, r.length = m.length := by
  intro r hr
  simp only [matTranspose, List.mem_map] at hr
  obtain ⟨j, _, rfl⟩ := hr
  simp

theorem matTranspose_entries {m : List (List Tensor)} {b : Nat} {j i : Nat}
    (hj : j < b) (hi : i < m.length) :
    ((matTranspose m b).getD j []).getD i (Tensor.scalar 0) =
      (m.getD i []).getD j (Tensor.scalar 0) := by
  rw [matTranspose]
  rw [getD_map_lt (fun j => m.map (fun r => r.getD j (Tensor.scalar 0)))
    (by simpa using hj) []]
  simp only [List.get_eq_getElem, List.getElem_range]
  rw [getD_map_lt (fun r => r.getD j (Tensor.scalar 0)) hi (Tensor.scalar 0)]
  rw [getD_lt hi]

theorem moveaxis01_ofMatrix {m : List (List Tensor)} {b : Nat}
    (hne : m ≠ []) (hrow : ∀ r ∈ m, r.length = b) :
    Tensor.moveaxis01 (Tensor.ofMatrix m) =
      some (Tensor.ofMatrix (matTranspose m b)) := by
  cases m with
  | nil => exact absurd rfl hne
  | cons r0 rs =>
    have hopt : optMapList Tensor.getRow (Tensor.dim r0 :: rs.map Tensor.dim) =
        some (r0 :: rs) := by
      have := optMapList_getRow_map_dim (r0 :: rs)
      simpa using this
    have hall : rs.all (fun r => r.length == r0.length) = true := by
      rw [List.all_eq_true]
      intro r hr
      rw [hrow r (List.mem_cons_of_mem _ hr), hrow r0 (List.mem_cons_self _ _)]
      simp
    rw [Tensor.ofMatrix, List.map_cons, Tensor.moveaxis01, hopt]
    simp only [hall, if_true]
    rw [hrow r0 (List.mem_cons_self _ _)]
    rw [Tensor.ofMatrix, matTranspose, List.map_map]
    rfl

/-- Claim C6: when the model head returns the sampled actions with the sample
axis first (a `samples_per_state × batch` matrix of subarrays),
`get_policy_sampled_actions` returns them with the first two axes swapped:
the result has leading axis `batch`, every row holds exactly
`samples_per_state` sampled trajectories, and entry `(j, i)` of the result is
entry `(i, j)` of the head output. -/
theorem C6_sampled_actions_batched {Obs : Type} (applyFn : Obs → Tasks → Nat → Tensor)
    (observations : Obs) (tasks ablated : Tasks) (zero_text : PTree)
    (samples_per_state : Nat) (pm : Option String) (m : List (List Tensor)) (b : Nat)
    (hab : ablate_tasks tasks zero_text pm = some ablated)
    (happ : applyFn observations ablated samples_per_state = Tensor.ofMatrix m)
    (hm : m.length = samples_per_state) (hne : m ≠ [])
    (hrow : ∀ r ∈ m, r.length = b) :
    get_policy_sampled_actions applyFn observations tasks zero_text
        samples_per_state pm = some (Tensor.ofMatrix (matTranspose m b)) ∧
    (matTranspose m b).length = b ∧
    (∀ r ∈ matTranspose m b, r.length = samples_per_state) ∧
    (∀ j i, j < b → i < samples_per_state →
      ((matTranspose m b).getD j []).getD i (Tensor.scalar 0) =
        (m.getD i []).getD j (Tensor.scalar 0)) := by
  refine ⟨?_, matTranspose_length, ?_, ?_⟩
  · simp only [get_policy_sampled_actions, hab, happ]
    exact moveaxis01_ofMatrix hne hrow
  · intro r hr
    rw [matTranspose_row_length r hr, hm]
  · intro j i hj hi
    exact matTranspose_entries hj (by rw [hm]; exact hi)

/-- Witness for C6: two samples of a two-state batch of scalar actions. -/
theorem C6_sampled_actions_batched_witness :
    get_policy_sampled_actions (fun _ _ _ =>
        Tensor.ofMatrix [[Tensor.scalar 1, Tensor.scalar 2],
                         [Tensor.scalar 3, Tensor.scalar 4]]) () [] (PTree.leaf (Tensor.scalar 0))
        2 none =
      some (Tensor.ofMatrix (matTranspose [[Tensor.scalar 1, Tensor.scalar 2],
        [Tensor.scalar 3, Tensor.scalar 4]] 2)) ∧
    (matTranspose [[Tensor.scalar 1, Tensor.scalar 2],
      [Tensor.scalar 3, Tensor.scalar 4]] 2).length = 2 ∧
    (∀ r ∈ matTranspose [[Tensor.scalar 1, Tensor.scalar 2],
      [Tensor.scalar 3, Tensor.scalar 4]] 2, r.length = 2) ∧
    (∀ j i, j < 2 → i < 2 →
      ((matTranspose [[Tensor.scalar 1, Tensor.scalar 2],
          [Tensor.scalar 3, Tensor.scalar 4]] 2).getD j []).getD i (Tensor.scalar 0) =
        ([[Tensor.scalar 1, Tensor.scalar 2],
          [Tensor.scalar 3, Tensor.scalar 4]].getD i []).getD j (Tensor.scalar 0)) :=
  C6_sampled_actions_batched (fun _ _ _ =>
      Tensor.ofMatrix [[Tensor.scalar 1, Tensor.scalar 2],
                       [Tensor.scalar 3, Tensor.scalar 4]]) () [] []
    (PTree.leaf (Tensor.scalar 0)) 2 none
    [[Tensor.scalar 1, Tensor.scalar 2], [Tensor.scalar 3, Tensor.scalar 4]] 2
    rfl rfl rfl (by simp)
    (by
      intro r hr
      simp only [List.mem_cons, List.not_mem_nil, or_false] at hr
      rcases hr with rfl | rfl <;> rfl)

/-- Claim C1 counterexample: with `modes_to_evaluate = ["text_conditioned"]`,
the metric dictionary returned by `eval_step` has no entry for the requested
mode `"text_conditioned"`: its only entry is keyed `"image_conditioned"`
(computed on the language-ablated tasks), because the source guards the
`"text_conditioned"` output key by `"image_conditioned" in modes_to_evaluate`
and vice versa. -/
theorem C1_counterexample :
    eval_step (fun _ : Batch Unit => ((0 : Rat), VTree.leaf (0 : Rat)))
        ["text_conditioned"] (PTree.leaf (Tensor.scalar 5))
        ⟨[("language_instruction", PTree.leaf (Tensor.dim [Tensor.scalar 7]))], ()⟩ =
      some [("image_conditioned", VTree.leaf 0)] ∧
    findVal "text_conditioned" [(("image_conditioned" : String), VTree.leaf (0 : Rat))] =
      none :=
  ⟨rfl, rfl⟩

/-- Claim C1 as amended: `eval_step` returns a metric dictionary whose entries
are the losses on the ablated tasks, but the guard and the emitted key are
crossed for the two single-modality modes: the `"base"` entry (loss on the
unmodified tasks) is present iff `"base"` is requested, the
`"text_conditioned"` entry (loss on the image-ablated tasks) is present iff
`"image_conditioned"` is requested, the `"image_conditioned"` entry (loss on
the language-ablated tasks) is present iff `"text_conditioned"` is requested,
and the `"unconditioned"` entry (loss on the doubly ablated tasks) is present
iff `"unconditioned"` is requested; no other entries occur. -/
theorem C1_eval_step_modes {R : Type} (loss_fn : Batch R → Rat × VTree Rat)
    (modes : List String) (zero_text : PTree) (batch : Batch R) (ti tt tu : Tasks)
    (himg : remove_images batch.tasks = some ti)
    (htxt : remove_text batch.tasks zero_text = some tt)
    (hun : remove_text ti zero_text = some tu) :
    eval_step loss_fn modes zero_text batch = some (
      ((if "base" ∈ modes then [("base", batch.tasks)] else []) ++
       (if "image_conditioned" ∈ modes then [("text_conditioned", ti)] else []) ++
       (if "text_conditioned" ∈ modes then [("image_conditioned", tt)] else []) ++
       (if "unconditioned" ∈ modes then [("unconditioned", tu)] else [])).map
        (fun kt => (kt.1, (loss_fn { batch with tasks := kt.2 }).2))) ∧
    ∀ out, eval_step loss_fn modes zero_text batch = some out →
      ((("base", (loss_fn batch).2) ∈ out ↔ "base" ∈ modes) ∧
       (("text_conditioned", (loss_fn { batch with tasks := ti }).2) ∈ out ↔
         "image_conditioned" ∈ modes) ∧
       (("image_conditioned", (loss_fn { batch with tasks := tt }).2) ∈ out ↔
         "text_conditioned" ∈ modes) ∧
       (("unconditioned", (loss_fn { batch with tasks := tu }).2) ∈ out ↔
         "unconditioned" ∈ modes) ∧
       ∀ kv ∈ out, kv.1 = "base" ∨ kv.1 = "text_conditioned" ∨
         kv.1 = "image_conditioned" ∨ kv.1 = "unconditioned") := by
  have hout : eval_step loss_fn modes zero_text batch = some (
      ((if "base" ∈ modes then [("base", batch.tasks)] else []) ++
       (if "image_conditioned" ∈ modes then [("text_conditioned", ti)] else []) ++
       (if "text_conditioned" ∈ modes then [("image_conditioned", tt)] else []) ++
       (if "unconditioned" ∈ modes then [("unconditioned", tu)] else [])).map
        (fun kt => (kt.1, (loss_fn { batch with tasks := kt.2 }).2))) := by
    simp only [eval_step, himg, htxt, hun, Option.map_some']
    rw [← apply_ite some, ← apply_ite some, ← apply_ite some]
  refine ⟨hout, ?_⟩
  intro out hout2
  rw [hout] at hout2
  injection hout2 with hout2
  subst hout2
  refine ⟨?_, ?_, ?_, ?_, ?_⟩
  · by_cases hb : "base" ∈ modes <;>
      simp [hb, List.mem_append, List.mem_map, apply_ite (List.map _)]
  · by_cases hic : "image_conditioned" ∈ modes <;>
      simp [hic, List.mem_append, List.mem_map, apply_ite (List.map _)]
  · by_cases htc : "text_conditioned" ∈ modes <;>
      simp [htc, List.mem_append, List.mem_map, apply_ite (List.map _)]
  · by_cases hu : "unconditioned" ∈ modes <;>
      simp [hu, List.mem_append, List.mem_map, apply_ite (List.map _)]
  · intro kv hkv
    simp only [List.mem_map, List.mem_append] at hkv
    obtain ⟨kt, hkt, rfl⟩ := hkv
    rcases hkt with ((h1 | h2) | h3) | h4
    · left
      split at h1
      · simp only [List.mem_singleton] at h1
        rw [h1]
      · cases h1
    · right; left
      split at h2
      · simp only [List.mem_singleton] at h2
        rw [h2]
      · cases h2
    · right; right; left
      split at h3
      · simp only [List.mem_singleton] at h3
        rw [h3]
      · cases h3
    · right; right; right
      split at h4
      · simp only [List.mem_singleton] at h4
        rw [h4]
      · cases h4

/-- Witness for the amended C1 at a concrete batch. -/
theorem C1_eval_step_modes_witness :
    eval_step (fun _ : Batch Unit => ((0 : Rat), VTree.leaf (0 : Rat)))
        ["base"] (PTree.leaf (Tensor.scalar 5))
        ⟨[("language_instruction", PTree.leaf (Tensor.dim [Tensor.scalar 7]))], ()⟩ = some (
      ((if "base" ∈ ["base"] then
          [("base", (⟨[("language_instruction",
            PTree.leaf (Tensor.dim [Tensor.scalar 7]))], ()⟩ : Batch Unit).tasks)] else []) ++
       (if "image_conditioned" ∈ ["base"] then
          [("text_conditioned",
            [("language_instruction", PTree.leaf (Tensor.dim [Tensor.scalar 7]))])] else []) ++
       (if "text_conditioned" ∈ ["base"] then
          [("image_conditioned",
            [("language_instruction", PTree.leaf (Tensor.dim [Tensor.scalar 5]))])] else []) ++
       (if "unconditioned" ∈ ["base"] then
          [("unconditioned",
            [("language_instruction", PTree.leaf (Tensor.dim [Tensor.scalar 5]))])] else [])).map
        (fun kt => (kt.1,
          ((fun _ : Batch Unit => ((0 : Rat), VTree.leaf (0 : Rat)))
            { (⟨[("language_instruction", PTree.leaf (Tensor.dim [Tensor.scalar 7]))],
                ()⟩ : Batch Unit) with tasks := kt.2 }).2))) ∧
    ∀ out, eval_step (fun _ : Batch Unit => ((0 : Rat), VTree.leaf (0 : Rat)))
        ["base"] (PTree.leaf (Tensor.scalar 5))
        ⟨[("language_instruction", PTree.leaf (Tensor.dim [Tensor.scalar 7]))], ()⟩ =
        some out →
      ((("base", ((fun _ : Batch Unit => ((0 : Rat), VTree.leaf (0 : Rat)))
          ⟨[("language_instruction", PTree.leaf (Tensor.dim [Tensor.scalar 7]))], ()⟩).2) ∈ out ↔
        "base" ∈ ["base"]) ∧
       (("text_conditioned", VTree.leaf (0 : Rat)) ∈ out ↔
        "image_conditioned" ∈ ["base"]) ∧
       (("image_conditioned", VTree.leaf (0 : Rat)) ∈ out ↔
        "text_conditioned" ∈ ["base"]) ∧
       (("unconditioned", VTree.leaf (0 : Rat)) ∈ out ↔
        "unconditioned" ∈ ["base"]) ∧
       ∀ kv ∈ out, kv.1 = "base" ∨ kv.1 = "text_conditioned" ∨
         kv.1 = "image_conditioned" ∨ kv.1 = "unconditioned") :=
  C1_eval_step_modes (fun _ : Batch Unit => ((0 : Rat), VTree.leaf (0 : Rat)))
    ["base"] (PTree.leaf (Tensor.scalar 5))
    ⟨[("language_instruction", PTree.leaf (Tensor.dim [Tensor.scalar 7]))], ()⟩
    [("language_instruction", PTree.leaf (Tensor.dim [Tensor.scalar 7]))]
    [("language_instruction", PTree.leaf (Tensor.dim [Tensor.scalar 5]))]
    [("language_instruction", PTree.leaf (Tensor.dim [Tensor.scalar 5]))]
    rfl rfl rfl

mutual
theorem VTree.map_allLeaves {α β : Type} (f : α → β) (p : β → Bool) :
    ∀ t : VTree α, (VTree.map f t).allLeaves p = t.allLeaves (fun x => p (f x))
  | .leaf x => rfl
  | .node cs => by
    simp only [VTree.map, VTree.allLeaves, VTree.mapChildren_allLeaves f p cs]
theorem VTree.mapChildren_allLeaves {α β : Type} (f : α → β) (p : β → Bool) :
    ∀ cs : List (String × VTree α),
      VTree.allLeavesChildren p (VTree.mapChildren f cs) =
        VTree.allLeavesChildren (fun x => p (f x)) cs
  | [] => rfl
  | kv :: rest => by
    simp only [VTree.mapChildren, VTree.allLeavesChildren,
      VTree.map_allLeaves f p kv.2, VTree.mapChildren_allLeaves f p rest]
end

mutual
theorem VTree.zipCons_allLeaves_length {α : Type} {k : Nat} :
    ∀ (t : VTree α) (c c' : VTree (List α)), VTree.zipCons t c = some c' →
      c.allLeaves (fun xs => xs.length == k) = true →
      c'.allLeaves (fun xs => xs.length == k + 1) = true
  | .leaf x, .leaf xs, c', h, hk => by
    simp only [VTree.zipCons, Option.some.injEq] at h
    subst h
    simp only [VTree.allLeaves, List.length_cons] at hk ⊢
    simp only [beq_iff_eq] at hk ⊢
    omega
  | .leaf _, .node _, _, h, _ => by simp [VTree.zipCons] at h
  | .node _, .leaf _, _, h, _ => by simp [VTree.zipCons] at h
  | .node cs, .node ds, c', h, hk => by
    simp only [VTree.zipCons, Option.map_eq_some'] at h
    obtain ⟨l, hl, rfl⟩ := h
    simp only [VTree.allLeaves] at hk ⊢
    exact VTree.zipConsChildren_allLeaves_length cs ds l hl hk
theorem VTree.zipConsChildren_allLeaves_length {α : Type} {k : Nat} :
    ∀ (cs : List (String × VTree α)) (ds l : List (String × VTree (List α))),
      VTree.zipConsChildren cs ds = some l →
      VTree.allLeavesChildren (fun xs => xs.length == k) ds = true →
      VTree.allLeavesChildren (fun xs => xs.length == k + 1) l = true
  | [], [], l, h, _ => by
    simp only [VTree.zipConsChildren, Option.some.injEq] at h
    subst h
    rfl
  | [], _ :: _, _, h, _ => by simp [VTree.zipConsChildren] at h
  | _ :: _, [], _, h, _ => by simp [VTree.zipConsChildren] at h
  | kv :: cs, kw :: ds, l, h, hk => by
    simp only [VTree.allLeavesChildren, Bool.and_eq_true] at hk
    simp only [VTree.zipConsChildren] at h
    split at h
    · cases hzc : VTree.zipCons kv.2 kw.2 with
      | none => rw [hzc] at h; exact absurd h (by simp)
      | some hd =>
        rw [hzc] at h
        cases hzl : VTree.zipConsChildren cs ds with
        | none => rw [hzl] at h; exact absurd h (by simp)
        | some tl =>
          rw [hzl] at h
          simp only [Option.some.injEq] at h
          subst h
          simp only [VTree.allLeavesChildren, Bool.and_eq_true]
          exact ⟨VTree.zipCons_allLeaves_length kv.2 kw.2 hd hzc hk.1,
            VTree.zipConsChildren_allLeaves_length cs ds tl hzl hk.2⟩
    · exact absurd h (by simp)
end

mutual
theorem VTree.allLeaves_true {α : Type} :
    ∀ t : VTree α, VTree.allLeaves (fun _ => true) t = true
  | .leaf _ => rfl
  | .node cs => by
    simpa only [VTree.allLeaves] using VTree.allLeavesChildren_true cs
theorem VTree.allLeavesChildren_true {α : Type} :
    ∀ cs : List (String × VTree α),
      VTree.allLeavesChildren (fun _ => true) cs = true
  | [] => rfl
  | kv :: rest => by
    simp only [VTree.allLeavesChildren, VTree.allLeaves_true kv.2,
      VTree.allLeavesChildren_true rest, Bool.and_self]
end

theorem VTree.collect_allLeaves_length {α : Type} :
    ∀ {ms : List (VTree α)} {c : VTree (List α)}, VTree.collect ms = some c →
      c.allLeaves (fun xs => xs.length == ms.length) = true := by
  intro ms
  induction ms with
  | nil => intro c h; simp [VTree.collect] at h
  | cons t ts ih =>
    intro c h
    cases ts with
    | nil =>
      simp only [VTree.collect, Option.some.injEq] at h
      subst h
      rw [VTree.map_allLeaves]
      simpa using VTree.allLeaves_true t
    | cons t2 ts2 =>
      simp only [VTree.collect] at h
      cases hc : VTree.collect (t2 :: ts2) with
      | none => rw [hc] at h; exact absurd h (by simp)
      | some c0 =>
        rw [hc] at h
        have hk := ih hc
        simpa using VTree.zipCons_allLeaves_length t c0 c h hk

/-- Claim C4: for every validation dataset, `ValidationCallback.__call__`
consumes exactly `num_val_batches` batches from that dataset's iterator
(`zip(range(n), it)` draws the first `n` elements of the stream), and the
`"validation_{name}"` entry is the leafwise arithmetic mean of the per-batch
metric trees: the collected tree `c` lists, at each leaf, the
`num_val_batches` per-batch values in order, and the reported tree is
`np_mean` (sum divided by length) mapped over it. -/
theorem C4_validation_call_averages {R : Type}
    (eval_step_fn : Batch R → Option (List (String × VTree Rat)))
    (val_iterators : List (String × (Nat → Batch R))) (n : Nat)
    (out : List (String × VTree Rat))
    (hcall : ValidationCallback.call eval_step_fn val_iterators n = some out)
    (name : String) (it : Nat → Batch R) (hmem : (name, it) ∈ val_iterators) :
    ∃ metrics c,
      optMapList (fun i => eval_step_fn (it i)) (List.range n) = some metrics ∧
      metrics.length = n ∧
      VTree.collect (metrics.map VTree.node) = some c ∧
      c.allLeaves (fun xs => xs.length == n) = true ∧
      ("validation_" ++ name, VTree.map np_mean c) ∈ out := by
  have hf := optMapList_forall₂ hcall
  obtain ⟨b, hb, hF⟩ := forall₂_mem_left hf hmem
  have hFit : (match optMapList (fun i => eval_step_fn (it i)) (List.range n) with
      | none => none
      | some metrics =>
        match VTree.collect (metrics.map VTree.node) with
        | none => none
        | some c => some ("validation_" ++ name, VTree.map np_mean c)) = some b := hF
  cases hm : optMapList (fun i => eval_step_fn (it i)) (List.range n) with
  | none =>
    simp only [hm] at hFit
    exact absurd hFit (by simp)
  | some metrics =>
    simp only [hm] at hFit
    cases hc : VTree.collect (metrics.map VTree.node) with
    | none =>
      simp only [hc] at hFit
      exact absurd hFit (by simp)
    | some c =>
      simp only [hc, Option.some.injEq] at hFit
      refine ⟨metrics, c, rfl, ?_, hc, ?_, ?_⟩
      · rw [optMapList_length hm, List.length_range]
      · have := VTree.collect_allLeaves_length hc
        rwa [List.length_map, optMapList_length hm, List.length_range] at this
      · rw [hFit]
        exact hb

/-- Witness for C4: one dataset, two batches with metric values 1 and 3. -/
theorem C4_validation_call_averages_witness :
    ∃ metrics c,
      optMapList (fun i =>
        (fun b : Batch Rat => some [("loss", VTree.leaf b.rest)])
          ((fun i => (⟨[], if i = 0 then (1 : Rat) else 3⟩ : Batch Rat)) i))
        (List.range 2) = some metrics ∧
      metrics.length = 2 ∧
      VTree.collect (metrics.map VTree.node) = some c ∧
      c.allLeaves (fun xs => xs.length == 2) = true ∧
      ("validation_" ++ "d", VTree.map np_mean c) ∈
        [("validation_" ++ "d",
          VTree.map np_mean (VTree.node [("loss", VTree.leaf [(1 : Rat), 3])]))] :=
  C4_validation_call_averages
    (fun b : Batch Rat => some [("loss", VTree.leaf b.rest)])
    [("d", fun i => (⟨[], if i = 0 then (1 : Rat) else 3⟩ : Batch Rat))] 2
    [("validation_" ++ "d",
      VTree.map np_mean (VTree.node [("loss", VTree.leaf [(1 : Rat), 3])]))]
    rfl "d" (fun i => (⟨[], if i = 0 then (1 : Rat) else 3⟩ : Batch Rat))
    (List.mem_singleton.mpr rfl)

/-- Claim C7: for every dataset visualizer and every mode,
`VisualizationCallback.__call__` reports an `offline_metrics_{name}/{mode}`
entry if and only if `trajs_for_metrics > 0` and a
`visualizations_{name}/{mode}` entry if and only if `trajs_for_viz > 0`, each
obtained from the dataset's `Visualizer` with the mode's batched policy
function; and `RolloutVisualizationCallback.__call__` reports a
`rollouts_{env_name}_chunk{action_chunk}/{mode}` entry for every rollout
visualizer and mode, delegating to `run_rollouts` with a policy function whose
`samples_per_state` is `1`. -/
theorem C7_visualization_rollout_reporting {Obs P R M I R2 : Type}
    (batched_apply : PolicyFn Obs → Nat → P) (eval_batch_size : Nat)
    (applyFn : Obs → Tasks → Nat → Tensor) (zero_text : PTree)
    (samples_per_state : Nat) (modes : List String)
    (visualizers : List (String × Visualizer P R M I)) (tfm tfv : Int)
    (rollout_visualizers : List (RolloutVisualizer (PolicyFn Obs) R2))
    (trajs_for_rollouts : Nat) :
    (∀ name vis mode, (name, vis) ∈ visualizers → mode ∈ modes →
      (("offline_metrics_" ++ name ++ "/" ++ mode,
        VizValue.metrics (vis.metrics_for_wandb (vis.raw_evaluations
          (batched_apply (fun observations tasks =>
            get_policy_sampled_actions applyFn observations tasks zero_text
              samples_per_state (some mode)) eval_batch_size) tfm))) ∈
        VisualizationCallback.call batched_apply eval_batch_size applyFn zero_text
          samples_per_state modes visualizers tfm tfv ↔ 0 < tfm) ∧
      (("visualizations_" ++ name ++ "/" ++ mode,
        VizValue.images (vis.visualize_for_wandb
          (batched_apply (fun observations tasks =>
            get_policy_sampled_actions applyFn observations tasks zero_text
              samples_per_state (some mode)) eval_batch_size) tfv)) ∈
        VisualizationCallback.call batched_apply eval_batch_size applyFn zero_text
          samples_per_state modes visualizers tfm tfv ↔ 0 < tfv)) ∧
    (∀ rv mode, rv ∈ rollout_visualizers → mode ∈ modes →
      ("rollouts_" ++ rv.env_name ++ "_chunk" ++ toString rv.action_chunk ++ "/" ++ mode,
        rv.run_rollouts (fun observations tasks =>
          get_policy_sampled_actions applyFn observations tasks zero_text 1 (some mode))
          trajs_for_rollouts) ∈
        RolloutVisualizationCallback.call applyFn zero_text modes rollout_visualizers
          trajs_for_rollouts) := by
  constructor
  · intro name vis mode hvis hmode
    constructor
    · constructor
      · intro hmem
        by_contra htfm
        simp only [VisualizationCallback.call, List.mem_flatMap, List.mem_append,
          List.mem_map] at hmem
        obtain ⟨nv, _, mp, _, hin⟩ := hmem
        rcases hin with h1 | h2
        · rw [if_neg htfm] at h1
          cases h1
        · split at h2
          · simp only [List.mem_singleton, Prod.mk.injEq] at h2
            cases h2.2
          · cases h2
      · intro htfm
        simp only [VisualizationCallback.call, List.mem_flatMap, List.mem_append,
          List.mem_map]
        refine ⟨(name, vis), hvis, ?_⟩
        refine ⟨(mode, batched_apply (fun observations tasks =>
          get_policy_sampled_actions applyFn observations tasks zero_text
            samples_per_state (some mode)) eval_batch_size), ⟨mode, hmode, rfl⟩, ?_⟩
        left
        rw [if_pos htfm]
        exact List.mem_singleton.mpr rfl
    · constructor
      · intro hmem
        by_contra htfv
        simp only [VisualizationCallback.call, List.mem_flatMap, List.mem_append,
          List.mem_map] at hmem
        obtain ⟨nv, _, mp, _, hin⟩ := hmem
        rcases hin with h1 | h2
        · split at h1
          · simp only [List.mem_singleton, Prod.mk.injEq] at h1
            cases h1.2
          · cases h1
        · rw [if_neg htfv] at h2
          cases h2
      · intro htfv
        simp only [VisualizationCallback.call, List.mem_flatMap, List.mem_append,
          List.mem_map]
        refine ⟨(name, vis), hvis, ?_⟩
        refine ⟨(mode, batched_apply (fun observations tasks =>
          get_policy_sampled_actions applyFn observations tasks zero_text
            samples_per_state (some mode)) eval_batch_size), ⟨mode, hmode, rfl⟩, ?_⟩
        right
        rw [if_pos htfv]
        exact List.mem_singleton.mpr rfl
  · intro rv mode hrv hmode
    simp only [RolloutVisualizationCallback.call, List.mem_flatMap, List.mem_map]
    exact ⟨rv, hrv, (mode, fun observations tasks =>
      get_policy_sampled_actions applyFn observations tasks zero_text 1 (some mode)),
      ⟨mode, hmode, rfl⟩, rfl⟩

/-- Witness for C7 with one visualizer, one rollout visualizer and one mode. -/
theorem C7_visualization_rollout_reporting_witness :
    ("offline_metrics_" ++ "d" ++ "/" ++ "text_conditioned", VizValue.metrics ((Visualizer.mk (fun (_ : Nat) (_ : Int) => (0 : Nat)) (fun (_ : Nat) => (0 : Nat)) (fun (_ : Nat) (_ : Int) => (0 : Nat))).metrics_for_wandb ((Visualizer.mk (fun (_ : Nat) (_ : Int) => (0 : Nat)) (fun (_ : Nat) => (0 : Nat)) (fun (_ : Nat) (_ : Int) => (0 : Nat))).raw_evaluations ((fun (_ : PolicyFn Unit) (_ : Nat) => (0 : Nat)) (fun observations tasks => get_policy_sampled_actions (fun (_ : Unit) (_ : Tasks) (_ : Nat) => Tensor.scalar 0) observations tasks (PTree.leaf (Tensor.scalar 0)) 2 (some "text_conditioned")) 4) 1))) ∈ VisualizationCallback.call (fun (_ : PolicyFn Unit) (_ : Nat) => (0 : Nat)) 4 (fun (_ : Unit) (_ : Tasks) (_ : Nat) => Tensor.scalar 0) (PTree.leaf (Tensor.scalar 0)) 2 ["text_conditioned"] [("d", (Visualizer.mk (fun (_ : Nat) (_ : Int) => (0 : Nat)) (fun (_ : Nat) => (0 : Nat)) (fun (_ : Nat) (_ : Int) => (0 : Nat))))] 1 1 ∧
    ("visualizations_" ++ "d" ++ "/" ++ "text_conditioned", VizValue.images ((Visualizer.mk (fun (_ : Nat) (_ : Int) => (0 : Nat)) (fun (_ : Nat) => (0 : Nat)) (fun (_ : Nat) (_ : Int) => (0 : Nat))).visualize_for_wandb ((fun (_ : PolicyFn Unit) (_ : Nat) => (0 : Nat)) (fun observations tasks => get_policy_sampled_actions (fun (_ : Unit) (_ : Tasks) (_ : Nat) => Tensor.scalar 0) observations tasks (PTree.leaf (Tensor.scalar 0)) 2 (some "text_conditioned")) 4) 1)) ∈ VisualizationCallback.call (fun (_ : PolicyFn Unit) (_ : Nat) => (0 : Nat)) 4 (fun (_ : Unit) (_ : Tasks) (_ : Nat) => Tensor.scalar 0) (PTree.leaf (Tensor.scalar 0)) 2 ["text_conditioned"] [("d", (Visualizer.mk (fun (_ : Nat) (_ : Int) => (0 : Nat)) (fun (_ : Nat) => (0 : Nat)) (fun (_ : Nat) (_ : Int) => (0 : Nat))))] 1 1 ∧
    ("rollouts_" ++ "env" ++ "_chunk" ++ toString (3 : Nat) ++ "/" ++ "text_conditioned", (RolloutVisualizer.mk "env" 3 (fun (_ : PolicyFn Unit) (n : Nat) => n)).run_rollouts (fun observations tasks => get_policy_sampled_actions (fun (_ : Unit) (_ : Tasks) (_ : Nat) => Tensor.scalar 0) observations tasks (PTree.leaf (Tensor.scalar 0)) 1 (some "text_conditioned")) 5) ∈ RolloutVisualizationCallback.call (fun (_ : Unit) (_ : Tasks) (_ : Nat) => Tensor.scalar 0) (PTree.leaf (Tensor.scalar 0)) ["text_conditioned"] [(RolloutVisualizer.mk "env" 3 (fun (_ : PolicyFn Unit) (n : Nat) => n))] 5 := by
  have h := C7_visualization_rollout_reporting (fun (_ : PolicyFn Unit) (_ : Nat) => (0 : Nat)) 4 (fun (_ : Unit) (_ : Tasks) (_ : Nat) => Tensor.scalar 0) (PTree.leaf (Tensor.scalar 0)) 2
    ["text_conditioned"] [("d", (Visualizer.mk (fun (_ : Nat) (_ : Int) => (0 : Nat)) (fun (_ : Nat) => (0 : Nat)) (fun (_ : Nat) (_ : Int) => (0 : Nat))))] 1 1 [(RolloutVisualizer.mk "env" 3 (fun (_ : PolicyFn Unit) (n : Nat) => n))] 5
  have h1 := h.1 "d" (Visualizer.mk (fun (_ : Nat) (_ : Int) => (0 : Nat)) (fun (_ : Nat) => (0 : Nat)) (fun (_ : Nat) (_ : Int) => (0 : Nat))) "text_conditioned"
    (List.mem_singleton.mpr rfl) (List.mem_singleton.mpr rfl)
  have h2 := h.2 (RolloutVisualizer.mk "env" 3 (fun (_ : PolicyFn Unit) (n : Nat) => n)) "text_conditioned"
    (List.mem_singleton.mpr rfl) (List.mem_singleton.mpr rfl)
  exact ⟨h1.1.mpr (by decide), h1.2.mpr (by decide), h2⟩

/-- Claim C10: with `save_dir = None`, `SaveCallback.__call__` performs no
checkpoint saves for any train state and step, and `SaveCallback.open`
returns a handle to `os.devnull` for every file name and mode; with
`save_dir` set and process index 0, `__call__` saves the params checkpoint
and the full train-state checkpoint at the given step, in that order. -/
theorem C10_save_callback_effects {P R : Type} (cb : SaveCallback)
    (train_state : TrainState P R) (step : Nat) (fname mode : String) :
    (cb.save_dir = none →
      cb.call train_state step = [] ∧
      cb.openFile fname mode = FileHandle.devnull mode) ∧
    (∀ d, cb.save_dir = some d → cb.process_index = 0 →
      cb.call train_state step =
        [SaveEvent.save_params step train_state.params,
         SaveEvent.save_state step train_state] ∧
      cb.openFile fname mode = FileHandle.gfile (gfile_join d fname) mode) := by
  constructor
  · intro h
    constructor
    · simp [SaveCallback.call, h]
    · simp [SaveCallback.openFile, h]
  · intro d hd hpi
    constructor
    · simp [SaveCallback.call, hd, hpi]
    · simp [SaveCallback.openFile, hd, hpi]

/-- Witness for C10 on both configurations. -/
theorem C10_save_callback_effects_witness :
    ((SaveCallback.mk none 0).call (TrainState.mk (0 : Nat) (0 : Nat)) 7 = [] ∧
      (SaveCallback.mk none 0).openFile "plot.png" "wb" = FileHandle.devnull "wb") ∧
    ((SaveCallback.mk (some "logs") 0).call (TrainState.mk (0 : Nat) (0 : Nat)) 7 =
      [SaveEvent.save_params 7 (TrainState.mk (0 : Nat) (0 : Nat)).params,
       SaveEvent.save_state 7 (TrainState.mk (0 : Nat) (0 : Nat))] ∧
      (SaveCallback.mk (some "logs") 0).openFile "plot.png" "wb" =
        FileHandle.gfile (gfile_join "logs" "plot.png") "wb") :=
  ⟨(C10_save_callback_effects (SaveCallback.mk none 0)
      (TrainState.mk (0 : Nat) (0 : Nat)) 7 "plot.png" "wb").1 rfl,
   (C10_save_callback_effects (SaveCallback.mk (some "logs") 0)
      (TrainState.mk (0 : Nat) (0 : Nat)) 7 "plot.png" "wb").2 "logs" rfl rfl⟩

example : Tensor.broadcastTo (.scalar 7) [2, 2] =
    some (.dim [.dim [.scalar 7, .scalar 7], .dim [.scalar 7, .scalar 7]]) := rfl

example : Tensor.broadcastTo (.dim [.scalar 1, .scalar 2]) [2, 2] =
    some (.dim [.dim [.scalar 1, .scalar 2], .dim [.scalar 1, .scalar 2]]) := rfl

example : Tensor.broadcastTo (.dim [.dim [.scalar 1], .dim [.scalar 2]]) [2, 3] =
    some (.dim [.dim [.scalar 1, .scalar 1, .scalar 1],
                .dim [.scalar 2, .scalar 2, .scalar 2]]) := rfl

example : Tensor.broadcastTo (.dim [.scalar 1, .scalar 2]) [3] = none := rfl

example : Tensor.zerosLike (.dim [.dim [.scalar 3], .dim [.scalar 4]]) =
    .dim [.dim [.scalar 0], .dim [.scalar 0]] := rfl

example : strIn "image" "language_instruction" = false := rfl

example : strIn "image" "image_primary" = true := rfl

example :
    remove_images [("image_primary", .leaf (.dim [.scalar 3, .scalar 4])),
                   ("language_instruction", .node [("tokens", .leaf (.dim [.scalar 9]))])] =
    some [("image_primary", .leaf (.dim [.scalar 0, .scalar 0])),
          ("language_instruction", .node [("tokens", .leaf (.dim [.scalar 9]))])] := rfl

example :
    remove_text [("language_instruction", .leaf (.dim [.scalar 7]))] (.leaf (.scalar 5)) =
    some [("language_instruction", .leaf (.dim [.scalar 5]))] := rfl

example :
    remove_text [("language_instruction",
                  .node [("tokens", .leaf (.dim [.dim [.scalar 7, .scalar 8]]))])]
      (.node [("tokens", .leaf (.dim [.scalar 1, .scalar 2]))]) =
    some [("language_instruction",
           .node [("tokens", .leaf (.dim [.dim [.scalar 1, .scalar 2]]))])] := rfl

example : remove_text [("image_primary", .leaf (.scalar 3))] (.leaf (.scalar 5)) =
    some [("image_primary", .leaf (.scalar 3))] := rfl

example :
    Tensor.moveaxis01 (.dim [.dim [.scalar 1, .scalar 2, .scalar 3],
                             .dim [.scalar 4, .scalar 5, .scalar 6]]) =
    some (.dim [.dim [.scalar 1, .scalar 4],
                .dim [.scalar 2, .scalar 5],
                .dim [.scalar 3, .scalar 6]]) := rfl
